import Mathlib

/-!
Block-dispatch scheduler of `task2/build/raytracing_queue.cpp`.

A shallow embedding of the queue-based ray-tracing driver: the block renderer
`func`, the worker loop `thread_func` and the dispatcher `main`, followed by the
properties of the partition, of the sentinel protocol and of the image writes.

Integers.

C++ `int` values are mathematical integers reduced with `wrapInt` where the
source computes a product, a sum or a quotient.  Loop counters are compared
against an `int` bound before they are incremented, so `x++` never leaves the
range and is left unreduced.  `%` and `/` are the truncating `Int.tmod` and
`Int.tdiv`.  C++ gives them no value for a zero divisor and for
`INT_MIN / -1`; the division instruction traps there, and `main`, whose first
action is the remainder of line 96, is killed (`Pc.trapped`).

Threads.

The program is a transition system.  A state holds the program counter of
`main`, the queue, the position of each worker inside `thread_func`, the
image, and three logs.  A step is what a thread does without being
interrupted at a point that matters: a critical section of the mutex `mut`
(one push with its `notify_one`, one test-and-pop, one test-and-wait), one
pixel of `func`, the `notify_all`, one `join`.  A schedule is a list of
decisions saying which thread moves next; it may also wake a waiting worker
without notification.  The properties are stated for every schedule.
-/

namespace Raytracing

set_option maxRecDepth 100000

/-! ## Machine integers and counted loops -/

/-- Two's-complement reduction of an integer to the 32-bit range of a C++ `int`. -/
def wrapInt (n : Int) : Int := (n + 2147483648) % 4294967296 - 2147483648

/-- The value fits a C++ `int`. -/
def isInt (n : Int) : Prop := -2147483648 ≤ n ∧ n ≤ 2147483647

instance (n : Int) : Decidable (isInt n) :=
  inferInstanceAs (Decidable (-2147483648 ≤ n ∧ n ≤ 2147483647))

/-- Runs `body x`, `body (x+1)`, ... for `n` consecutive counter values. -/
def loopFrom {σ : Type} : Nat → Int → (Int → σ → σ) → σ → σ
  | 0, _, _, s => s
  | n + 1, x, body, s => loopFrom n (x + 1) body (body x s)

/-- The loop `for (int x = lo; x < hi; x++) body`, whose body does not assign
the counter: it runs `max 0 (hi - lo)` times, on `lo, lo+1, ..., hi-1`. -/
def forLoop {σ : Type} (lo hi : Int) (body : Int → σ → σ) (s : σ) : σ :=
  loopFrom (hi - lo).toNat lo body s

/-- The counter values of `for (int x = lo; x < hi; x++)`, in order. -/
def intRange (lo hi : Int) : List Int :=
  (List.range (hi - lo).toNat).map (fun (k : Nat) => lo + (k : Int))

/-! ## Image buffer -/

/-- Modelled from the spec: the `Image` class of `minirt/minirt.h` is not part
of the sources at hand.  It is the "mutable 2-D grid of colors" with
"positional writes" of the specification: `cells x y` is `none` until the cell
is written.  `history` records the positions of the calls of `set`, oldest
first (the write instrumentation the specification suggests for tests). -/
structure Image (C : Type) where
  width : Int
  height : Int
  cells : Int → Int → Option C
  history : List (Int × Int)

/-- Modelled from the spec: `Image image(width, height)`, no cell written yet. -/
def Image.blank {C : Type} (width height : Int) : Image C :=
  { width := width, height := height, cells := fun _ _ => none, history := [] }

/-- Modelled from the spec: `image.set(x, y, color)`, a positional write. -/
def Image.set {C : Type} (img : Image C) (x y : Int) (color : C) : Image C :=
  { img with
    cells := fun x' y' => if x' = x ∧ y' = y then some color else img.cells x' y'
    history := img.history ++ [(x, y)] }

/-! ## Block renderer -/

/-- First column of block `elem`: the `int` product `elem*blockSize`. -/
def blockLo (elem blockSize : Int) : Int := wrapInt (elem * blockSize)

/-- Loop bound of block `elem`: the `int` sum `elem*blockSize + blockSize`. -/
def blockHi (elem blockSize : Int) : Int := wrapInt (blockLo elem blockSize + blockSize)

/-- The function `func` (lines 54-60).  `computePixel x y numOfSamples` stands for
`viewPlane.computePixel(scene, x, y, numOfSamples)`; the view plane and the
scene are passed by value and never change. -/
def func {C : Type} (computePixel : Int → Int → Int → C) (image : Image C)
    (elem blockSize resolutionY numOfSamples : Int) : Image C :=
  forLoop (blockLo elem blockSize) (blockHi elem blockSize)
    (fun x img =>
      forLoop 0 resolutionY (fun y img => img.set x y (computePixel x y numOfSamples)) img)
    image

/-- The pixels `func` visits for block `elem`, in the order of its two loops. -/
def funcCells (elem blockSize resolutionY : Int) : List (Int × Int) :=
  forLoop (blockLo elem blockSize) (blockHi elem blockSize)
    (fun x acc => forLoop 0 resolutionY (fun y acc => acc ++ [(x, y)]) acc)
    []

/-! ## Work queue, worker threads and dispatcher -/

/-- The command-line arguments read at lines 88-92. -/
structure Args where
  viewPlaneResolutionX : Int
  viewPlaneResolutionY : Int
  numOfSamples : Int
  numThreads : Int
  blockSize : Int

/-- The remainder `viewPlaneResolutionX % blockSize` of line 96 has no value in
C++: the divisor is zero, or the quotient `INT_MIN / -1` is no `int`.  The
division instruction traps on both and the process is killed. -/
def remainderUndefined (a : Args) : Prop :=
  a.blockSize = 0 ∨ (a.viewPlaneResolutionX = -2147483648 ∧ a.blockSize = -1)

instance (a : Args) : Decidable (remainderUndefined a) :=
  inferInstanceAs (Decidable
    (a.blockSize = 0 ∨ (a.viewPlaneResolutionX = -2147483648 ∧ a.blockSize = -1)))

/-- The number of blocks, `viewPlaneResolutionX / blockSize` of line 136: the
truncating quotient of C++, reduced to an `int`. -/
def blockCount (a : Args) : Int := wrapInt (a.viewPlaneResolutionX.tdiv a.blockSize)

/-- Where a worker thread stands inside `thread_func`. -/
inductive Worker where
  /-- At line 68, about to take the mutex and test `data.empty()`. -/
  | idle
  /-- Suspended inside `cond.wait(lock)` (line 70), the mutex released. -/
  | waiting
  /-- Inside `func` (line 82), with the pixels still to be computed and set. -/
  | rendering (pending : List (Int × Int))
  /-- Returned at line 78. -/
  | terminated
  deriving DecidableEq

/-- A synchronisation action of the dispatcher on the queue monitor. -/
inductive Event where
  | lock
  | unlock
  | push (item : Int)
  | notifyOne
  | notifyAll
  deriving DecidableEq

/-- Program counter of `main`. -/
inductive Pc where
  /-- Before the divisibility test of line 96. -/
  | start
  /-- At the test of the loop of line 130, with the value of `threadNum`. -/
  | spawn (threadNum : Int)
  /-- At the test of the loop of line 136, with the value of `i`. -/
  | fill (i : Int)
  /-- At the test of the loop of line 145, with the value of `i`. -/
  | tokens (i : Int)
  /-- At the test of the loop of line 152, with the value of `i`. -/
  | join (i : Int)
  /-- After `return`, with the exit status. -/
  | exited (status : Int)
  /-- Killed inside the test of line 96: the division instruction that
  computes `viewPlaneResolutionX % blockSize` traps. -/
  | trapped
  deriving DecidableEq

/-- The shared state of a run.  `deqLog` and `writeLog` are instrumentation:
who popped which item and who wrote which cell, oldest first. -/
structure State (C : Type) where
  pc : Pc
  data : List Int
  threads : List Worker
  image : Image C
  events : List Event
  deqLog : List (Nat × Int)
  writeLog : List (Nat × (Int × Int))

/-- The state when `main` starts.  The image of line 122 is present, blank,
from the beginning; nothing touches it before the threads exist. -/
def init {C : Type} (a : Args) : State C :=
  { pc := Pc.start, data := [], threads := [],
    image := Image.blank a.viewPlaneResolutionX a.viewPlaneResolutionY,
    events := [], deqLog := [], writeLog := [] }

/-- The effect of `cond.notify_one()`: the waiting worker `choice` is woken; with
no waiting worker nothing happens.  `none` when `choice` is not a possible
outcome (some worker waits, but not that one). -/
def wakeOne (threads : List Worker) (choice : Nat) : Option (List Worker) :=
  if threads[choice]? = some Worker.waiting then some (threads.set choice Worker.idle)
  else if Worker.waiting ∈ threads then none
  else some threads

/-- The effect of `cond.notify_all()`: every waiting worker is woken. -/
def wakeAll (threads : List Worker) : List Worker :=
  threads.map (fun t => if t = Worker.waiting then Worker.idle else t)

/-- One step of `main` (lines 94-161).  A critical section is one step.
`none` when `main` cannot move: it has returned, it was killed, or it waits
in `join`. -/
def main_step {C : Type} (a : Args) (choice : Nat) (st : State C) : Option (State C) :=
  match st.pc with
  | Pc.start =>
    if remainderUndefined a then some { st with pc := Pc.trapped }
    else if a.viewPlaneResolutionX.tmod a.blockSize ≠ 0 then
      some { st with pc := Pc.exited (-1) }
    else some { st with pc := Pc.spawn 0 }
  | Pc.spawn threadNum =>
    if threadNum < a.numThreads then
      some { st with threads := st.threads ++ [Worker.idle], pc := Pc.spawn (threadNum + 1) }
    else some { st with pc := Pc.fill 0 }
  | Pc.fill i =>
    if i < blockCount a then
      match wakeOne st.threads choice with
      | some threads =>
        some { st with
          data := st.data ++ [i]
          threads := threads
          events := st.events ++ [Event.lock, Event.push i, Event.notifyOne, Event.unlock]
          pc := Pc.fill (i + 1) }
      | none => none
    else some { st with pc := Pc.tokens 0 }
  | Pc.tokens i =>
    if i < a.numThreads then
      some { st with
        data := st.data ++ [-1]
        events := st.events ++ [Event.lock, Event.push (-1), Event.unlock]
        pc := Pc.tokens (i + 1) }
    else
      some { st with
        threads := wakeAll st.threads
        events := st.events ++ [Event.notifyAll]
        pc := Pc.join 0 }
  | Pc.join i =>
    if i < a.numThreads then
      if st.threads[i.toNat]? = some Worker.terminated then some { st with pc := Pc.join (i + 1) }
      else none
    else some { st with pc := Pc.exited 0 }
  | Pc.exited _ => none
  | Pc.trapped => none

/-- One step of worker `w` running `thread_func` (lines 62-84): the critical
section of lines 68-73 together with the test of line 77, or one pixel of
`func`, or the return of `func`.  `none` when the worker cannot move: it
waits for a notification, it has returned, or it does not exist. -/
def thread_func_step {C : Type} (a : Args) (computePixel : Int → Int → Int → C)
    (w : Nat) (st : State C) : Option (State C) :=
  match st.threads[w]? with
  | some Worker.idle =>
    match st.data with
    | [] => some { st with threads := st.threads.set w Worker.waiting }
    | elem :: rest =>
      if elem = -1 then
        some { st with
          data := rest
          deqLog := st.deqLog ++ [(w, elem)]
          threads := st.threads.set w Worker.terminated }
      else
        some { st with
          data := rest
          deqLog := st.deqLog ++ [(w, elem)]
          threads := st.threads.set w
            (Worker.rendering (funcCells elem a.blockSize a.viewPlaneResolutionY)) }
  | some (Worker.rendering ((x, y) :: rest)) =>
    some { st with
      image := st.image.set x y (computePixel x y a.numOfSamples)
      writeLog := st.writeLog ++ [(w, (x, y))]
      threads := st.threads.set w (Worker.rendering rest) }
  | some (Worker.rendering []) => some { st with threads := st.threads.set w Worker.idle }
  | _ => none

/-- A spurious wake-up of worker `w`, which `std::condition_variable::wait`
allows and the loop of line 69 guards against: the worker leaves `cond.wait`
without a notification and will test `data.empty()` again. -/
def spurious_wake {C : Type} (w : Nat) (st : State C) : Option (State C) :=
  if st.threads[w]? = some Worker.waiting then
    some { st with threads := st.threads.set w Worker.idle }
  else none

/-- A scheduling decision: let `main` move (with the outcome of a possible
`notify_one`), let worker `w` move, or wake worker `w` spuriously. -/
inductive Move where
  | main (choice : Nat)
  | worker (w : Nat)
  | wake (w : Nat)
  deriving DecidableEq

/-- One step of the whole program under a scheduling decision. -/
def step {C : Type} (a : Args) (computePixel : Int → Int → Int → C)
    (m : Move) (st : State C) : Option (State C) :=
  match m with
  | Move.main choice => main_step a choice st
  | Move.worker w => thread_func_step a computePixel w st
  | Move.wake w => spurious_wake w st

/-- The state after a schedule; a decision for a thread that cannot move is skipped. -/
def run {C : Type} (a : Args) (computePixel : Int → Int → Int → C)
    (sched : List Move) (st : State C) : State C :=
  sched.foldl (fun s m => (step a computePixel m s).getD s) st

/-- The number of steps a schedule really performs. -/
def executed {C : Type} (a : Args) (computePixel : Int → Int → Int → C) :
    List Move → State C → Nat
  | [], _ => 0
  | m :: ms, st =>
    match step a computePixel m st with
    | some st' => executed a computePixel ms st' + 1
    | none => executed a computePixel ms st

/-- No thread can move by itself: `main` has no step and no worker has one. -/
def stuck {C : Type} (a : Args) (computePixel : Int → Int → Int → C) (st : State C) : Prop :=
  (∀ choice, main_step a choice st = none) ∧ ∀ w, thread_func_step a computePixel w st = none

/-- The decision is a spurious wake-up. -/
def Move.isWake : Move → Bool
  | Move.wake _ => true
  | _ => false

/-- The schedule holds no spurious wake-up. -/
def noWake (sched : List Move) : Prop := ∀ m ∈ sched, m.isWake = false

instance (sched : List Move) : Decidable (noWake sched) :=
  inferInstanceAs (Decidable (∀ m ∈ sched, m.isWake = false))

/-! ## Derived quantities used in the statements -/

/-- The items pushed, read off the dispatcher's events. -/
def pushed : List Event → List Int
  | [] => []
  | Event.push item :: es => item :: pushed es
  | _ :: es => pushed es

/-- The events of the critical sections of lines 137-141, for the blocks `ids`. -/
def blockEvents (ids : List Int) : List Event :=
  ids.flatMap (fun i => [Event.lock, Event.push i, Event.notifyOne, Event.unlock])

/-- The events of `n` rounds of the loop of lines 145-148. -/
def tokenEvents : Nat → List Event
  | 0 => []
  | n + 1 => tokenEvents n ++ [Event.lock, Event.push (-1), Event.unlock]

/-- The whole synchronisation trace of a run that passes the divisibility test. -/
def fullEvents (a : Args) : List Event :=
  blockEvents (intRange 0 (blockCount a)) ++ tokenEvents a.numThreads.toNat ++ [Event.notifyAll]

/-- The monitor discipline in the words of the specification, checked along a
trace: a push is made with the mutex held (`held`), and a push not yet
signalled (`owed`) must be signalled before the mutex is released; a signal
counts when it is issued with the mutex held. -/
def pushSignalled : Bool → Bool → List Event → Bool
  | _, owed, [] => !owed
  | _, owed, Event.lock :: es => pushSignalled true owed es
  | _, owed, Event.unlock :: es => !owed && pushSignalled false false es
  | held, _, Event.push _ :: es => held && pushSignalled held true es
  | held, owed, Event.notifyOne :: es => pushSignalled held (owed && !held) es
  | held, owed, Event.notifyAll :: es => pushSignalled held (owed && !held) es

/-- Every push is made with the mutex held. -/
def pushLocked : Bool → List Event → Bool
  | _, [] => true
  | _, Event.lock :: es => pushLocked true es
  | _, Event.unlock :: es => pushLocked false es
  | held, Event.push _ :: es => held && pushLocked held es
  | held, _ :: es => pushLocked held es

/-- The pixels still to be written by a worker inside `func`. -/
def Worker.pending : Worker → List (Int × Int)
  | Worker.rendering p => p
  | _ => []

/-- An upper bound on the steps a worker can take without popping an item. -/
def Worker.budget : Worker → Nat
  | Worker.idle => 1
  | Worker.waiting => 0
  | Worker.rendering p => p.length + 2
  | Worker.terminated => 0

/-- An upper bound on the steps caused by one queued item. -/
def itemBudget (a : Args) (item : Int) : Nat :=
  if item = -1 then 1 else (funcCells item a.blockSize a.viewPlaneResolutionY).length + 2

/-- An upper bound on the steps caused by what `main` has still to do. -/
def mainBudget (a : Args) : Pc → Nat
  | Pc.exited _ => 0
  | Pc.trapped => 0
  | Pc.join i => (a.numThreads - i).toNat + 1
  | Pc.tokens i => 2 * (a.numThreads - i).toNat + 2 * a.numThreads.toNat + 3
  | Pc.fill i =>
    ((intRange i (blockCount a)).map (fun e => itemBudget a e + 2)).sum
      + 4 * a.numThreads.toNat + 4
  | Pc.spawn k =>
    2 * (a.numThreads - k).toNat
      + ((intRange 0 (blockCount a)).map (fun e => itemBudget a e + 2)).sum
      + 4 * a.numThreads.toNat + 5
  | Pc.start =>
    ((intRange 0 (blockCount a)).map (fun e => itemBudget a e + 2)).sum
      + 6 * a.numThreads.toNat + 6

/-- An upper bound on the number of steps left in a state. -/
def budget {C : Type} (a : Args) (st : State C) : Nat :=
  mainBudget a st.pc + (st.data.map (itemBudget a)).sum + (st.threads.map Worker.budget).sum

/-! ## The invariant of a run -/

/-- The dispatcher's events when `main` stands at a program counter. -/
def eventsAt (a : Args) : Pc → List Event
  | Pc.start => []
  | Pc.spawn _ => []
  | Pc.fill i => blockEvents (intRange 0 i)
  | Pc.tokens i => blockEvents (intRange 0 (blockCount a)) ++ tokenEvents i.toNat
  | Pc.join _ => fullEvents a
  | Pc.exited status => if status = 0 then fullEvents a else []
  | Pc.trapped => []

/-- The values a program counter can take. -/
def pcOk (a : Args) : Pc → Prop
  | Pc.start => True
  | Pc.spawn k =>
    (a.viewPlaneResolutionX.tmod a.blockSize = 0 ∧ ¬ remainderUndefined a)
      ∧ 0 ≤ k ∧ (k ≤ a.numThreads ∨ k = 0)
  | Pc.fill i =>
    (a.viewPlaneResolutionX.tmod a.blockSize = 0 ∧ ¬ remainderUndefined a)
      ∧ 0 ≤ i ∧ (i ≤ blockCount a ∨ i = 0)
  | Pc.tokens i =>
    (a.viewPlaneResolutionX.tmod a.blockSize = 0 ∧ ¬ remainderUndefined a)
      ∧ 0 ≤ i ∧ (i ≤ a.numThreads ∨ i = 0)
  | Pc.join i =>
    (a.viewPlaneResolutionX.tmod a.blockSize = 0 ∧ ¬ remainderUndefined a)
      ∧ 0 ≤ i ∧ (i ≤ a.numThreads ∨ i = 0)
  | Pc.exited status =>
    (status = 0 ∧ a.viewPlaneResolutionX.tmod a.blockSize = 0 ∧ ¬ remainderUndefined a)
      ∨ (status = -1 ∧ a.viewPlaneResolutionX.tmod a.blockSize ≠ 0 ∧ ¬ remainderUndefined a)
  | Pc.trapped => remainderUndefined a

/-- The number of threads created when `main` stands at a program counter. -/
def spawnedAt (a : Args) : Pc → Nat
  | Pc.start => 0
  | Pc.spawn k => k.toNat
  | Pc.exited status => if status = 0 then a.numThreads.toNat else 0
  | Pc.trapped => 0
  | _ => a.numThreads.toNat

/-- The number of threads already joined. -/
def joinedAt (a : Args) : Pc → Nat
  | Pc.join i => i.toNat
  | Pc.exited status => if status = 0 then a.numThreads.toNat else 0
  | _ => 0

/-- The final `notify_all` of line 149 has been issued. -/
def pastNotify : Pc → Bool
  | Pc.join _ => true
  | Pc.exited _ => true
  | _ => false

/-- The workers that popped a terminal token, in the order of the pops. -/
def takers (deqLog : List (Nat × Int)) : List Nat :=
  (deqLog.filter (fun e => decide (e.2 = -1))).map Prod.fst

/-- The block identifiers popped so far, in the order of the pops. -/
def dequeuedBlocks (deqLog : List (Nat × Int)) : List Int :=
  (deqLog.map Prod.snd).filter (fun e => decide (e ≠ -1))

/-- The pixels of a list of blocks, as a multiset. -/
def cellsOf (a : Args) (ids : List Int) : Multiset (Int × Int) :=
  (ids.map (fun e =>
    (Multiset.ofList (funcCells e a.blockSize a.viewPlaneResolutionY)))).sum

/-- The pixels the rendering workers have still to write, as a multiset. -/
def pendingSum (threads : List Worker) : Multiset (Int × Int) :=
  (threads.map (fun t => (Multiset.ofList t.pending))).sum

/-- What holds in every state of every run. -/
structure Inv {C : Type} (a : Args) (computePixel : Int → Int → Int → C)
    (st : State C) : Prop where
  pc_ok : pcOk a st.pc
  events_eq : st.events = eventsAt a st.pc
  queue_eq : st.deqLog.map Prod.snd ++ st.data = pushed st.events
  spawned : st.threads.length = spawnedAt a st.pc
  deq_lt : ∀ e ∈ st.deqLog, e.1 < st.threads.length
  write_lt : ∀ e ∈ st.writeLog, e.1 < st.threads.length
  takers_nodup : (takers st.deqLog).Nodup
  takers_iff : ∀ w, w ∈ takers st.deqLog ↔ st.threads[w]? = some Worker.terminated
  joined : ∀ w, w < joinedAt a st.pc → st.threads[w]? = some Worker.terminated
  no_waiting : pastNotify st.pc = true → Worker.waiting ∉ st.threads
  cells_eq : Multiset.ofList (st.writeLog.map Prod.snd) + pendingSum st.threads
    = cellsOf a (dequeuedBlocks st.deqLog)
  history_eq : st.image.history = st.writeLog.map Prod.snd
  image_eq : ∀ x y, st.image.cells x y
    = if (x, y) ∈ st.image.history then some (computePixel x y a.numOfSamples) else none

/-- A valid partition: a non-negative `int` width that is a multiple of a
positive block size. -/
def Valid (a : Args) : Prop :=
  0 ≤ a.viewPlaneResolutionX ∧ a.viewPlaneResolutionX ≤ 2147483647 ∧ 1 ≤ a.blockSize
    ∧ a.viewPlaneResolutionX.tmod a.blockSize = 0

instance (a : Args) : Decidable (Valid a) :=
  inferInstanceAs (Decidable (0 ≤ a.viewPlaneResolutionX ∧ a.viewPlaneResolutionX ≤ 2147483647
    ∧ 1 ≤ a.blockSize ∧ a.viewPlaneResolutionX.tmod a.blockSize = 0))

/-- The columns the outer loop of `func` visits for block `elem`. -/
def funcColumns (elem blockSize : Int) : List Int :=
  intRange (blockLo elem blockSize) (blockHi elem blockSize)

/-- The pixels of a list of blocks, block after block. -/
def blocksCells (a : Args) (ids : List Int) : List (Int × Int) :=
  ids.flatMap (fun e => funcCells e a.blockSize a.viewPlaneResolutionY)

/-! ## A concrete run: `W=4, H=2, N=2, B=2` -/

/-- The arguments `4 2 1 2 2`: a 4x2 image, one sample, two workers, blocks of two columns. -/
def demoArgs : Args :=
  { viewPlaneResolutionX := 4, viewPlaneResolutionY := 2, numOfSamples := 1,
    numThreads := 2, blockSize := 2 }

/-- A stand-in for the render engine that tells the pixels apart. -/
def demoPixel (x y s : Int) : Int := 100 * x + 10 * y + s

/-- An interleaving in which both workers first wait, are woken by the two
`notify_one`, and render their blocks pixel by pixel in alternation. -/
def demoSchedule : List Move :=
  [Move.main 0, Move.main 0, Move.worker 0, Move.main 0, Move.worker 1, Move.main 0,
   Move.main 1, Move.worker 1, Move.main 0, Move.worker 0, Move.worker 1, Move.worker 0,
   Move.main 0, Move.worker 1, Move.worker 0, Move.worker 1, Move.worker 0, Move.main 0,
   Move.main 0, Move.main 0, Move.worker 0, Move.worker 1, Move.worker 1, Move.worker 0,
   Move.worker 0, Move.worker 1, Move.main 0, Move.main 0, Move.main 0]

/-- The arguments `10 2 1 2 3`: the block size does not divide the width. -/
def abortArgs : Args :=
  { viewPlaneResolutionX := 10, viewPlaneResolutionY := 2, numOfSamples := 1,
    numThreads := 2, blockSize := 3 }

/-- The arguments `-2147483648 2 1 2 -1`: the remainder of line 96 is `INT_MIN % -1`. -/
def trapArgs : Args :=
  { viewPlaneResolutionX := -2147483648, viewPlaneResolutionY := 2, numOfSamples := 1,
    numThreads := 2, blockSize := -1 }

/-- The arguments `4 2 1 0 2`: a valid partition and no worker. -/
def idleArgs : Args :=
  { viewPlaneResolutionX := 4, viewPlaneResolutionY := 2, numOfSamples := 1,
    numThreads := 0, blockSize := 2 }

/-- The state in which `main` has returned `-1` from its first test. -/
def aborted {C : Type} (a : Args) : State C :=
  { (init a : State C) with pc := Pc.exited (-1) }

/-- One idle worker in front of the queue `0, -1, 1, -1`, and no dispatcher activity. -/
def aloneState : State Int :=
  { (init demoArgs : State Int) with threads := [Worker.idle], data := [0, -1, 1, -1] }

/-- The arguments `1 1 1 1 1`: one block and one worker. -/
def tokenArgs : Args :=
  { viewPlaneResolutionX := 1, viewPlaneResolutionY := 1, numOfSamples := 1,
    numThreads := 1, blockSize := 1 }

/-! ## Lemmas on loops -/

theorem loopFrom_eq_foldl {σ : Type} (n : Nat) (x : Int) (body : Int → σ → σ) (s : σ) :
    loopFrom n x body s
      = ((List.range n).map (fun (k : Nat) => x + (k : Int))).foldl (fun s x => body x s) s := by
  induction n generalizing x s with
  | zero => rfl
  | succ n ih =>
    rw [loopFrom, ih, List.range_succ_eq_map]
    simp only [List.map_cons, List.foldl_cons, List.map_map, Nat.cast_zero, add_zero]
    congr 2
    funext k
    simp only [Function.comp, Nat.succ_eq_add_one, Nat.cast_add, Nat.cast_one]
    ring

theorem forLoop_eq_foldl {σ : Type} (lo hi : Int) (body : Int → σ → σ) (s : σ) :
    forLoop lo hi body s = (intRange lo hi).foldl (fun s x => body x s) s :=
  loopFrom_eq_foldl _ _ _ _

/-- The defining equation of the C loop: test, body, increment, repeat. -/
theorem forLoop_unfold {σ : Type} (lo hi : Int) (body : Int → σ → σ) (s : σ) :
    forLoop lo hi body s = if lo < hi then forLoop (lo + 1) hi body (body lo s) else s := by
  unfold forLoop
  split
  · next h =>
    have : (hi - lo).toNat = (hi - (lo + 1)).toNat + 1 := by omega
    rw [this, loopFrom]
  · next h =>
    have : (hi - lo).toNat = 0 := by omega
    rw [this, loopFrom]

theorem mem_intRange (lo hi x : Int) : x ∈ intRange lo hi ↔ lo ≤ x ∧ x < hi := by
  unfold intRange
  simp only [List.mem_map, List.mem_range]
  constructor
  · rintro ⟨k, hk, rfl⟩
    omega
  · rintro ⟨h1, h2⟩
    exact ⟨(x - lo).toNat, by omega, by omega⟩

theorem nodup_intRange (lo hi : Int) : (intRange lo hi).Nodup := by
  unfold intRange
  apply List.Nodup.map _ (List.nodup_range _)
  intro a b h
  simpa using h

theorem intRange_empty (lo hi : Int) (h : hi ≤ lo) : intRange lo hi = [] := by
  unfold intRange
  have : (hi - lo).toNat = 0 := by omega
  rw [this]; rfl

theorem intRange_succ (lo hi : Int) (h : lo ≤ hi) :
    intRange lo (hi + 1) = intRange lo hi ++ [hi] := by
  unfold intRange
  have : (hi + 1 - lo).toNat = (hi - lo).toNat + 1 := by omega
  rw [this, List.range_succ, List.map_append]
  simp only [List.map_cons, List.map_nil, List.append_cancel_left_eq, List.cons.injEq, and_true]
  omega

theorem intRange_cons (lo hi : Int) (h : lo < hi) :
    intRange lo hi = lo :: intRange (lo + 1) hi := by
  unfold intRange
  have : (hi - lo).toNat = (hi - (lo + 1)).toNat + 1 := by omega
  rw [this, List.range_succ_eq_map]
  simp only [List.map_cons, List.map_map, Nat.cast_zero, add_zero, List.cons.injEq, true_and]
  congr 1
  funext k
  simp only [Function.comp, Nat.succ_eq_add_one, Nat.cast_add, Nat.cast_one]
  ring

theorem pushed_append (es es' : List Event) : pushed (es ++ es') = pushed es ++ pushed es' := by
  induction es with
  | nil => rfl
  | cons e es ih => cases e <;> simp [pushed, ih]

theorem blockEvents_append (l l' : List Int) :
    blockEvents (l ++ l') = blockEvents l ++ blockEvents l' := by
  simp [blockEvents, List.flatMap_append]

theorem pushed_blockEvents (ids : List Int) : pushed (blockEvents ids) = ids := by
  induction ids with
  | nil => rfl
  | cons i ids ih =>
    have : blockEvents (i :: ids)
        = [Event.lock, Event.push i, Event.notifyOne, Event.unlock] ++ blockEvents ids := by
      simp [blockEvents]
    rw [this, pushed_append, ih]
    rfl

theorem pushed_tokenEvents (n : Nat) : pushed (tokenEvents n) = List.replicate n (-1) := by
  induction n with
  | zero => rfl
  | succ n ih =>
    rw [tokenEvents, pushed_append, ih, List.replicate_succ']
    rfl

theorem pushed_fullEvents (a : Args) :
    pushed (fullEvents a) = intRange 0 (blockCount a) ++ List.replicate a.numThreads.toNat (-1) := by
  unfold fullEvents
  rw [pushed_append, pushed_append, pushed_blockEvents, pushed_tokenEvents]
  simp [pushed]

theorem sum_map_set {M : Type} [AddCommMonoid M] (f : Worker → M) (l : List Worker) (w : Nat)
    (t t' : Worker) (h : l[w]? = some t) :
    ((l.set w t').map f).sum + f t = (l.map f).sum + f t' := by
  induction l generalizing w with
  | nil => simp at h
  | cons x xs ih =>
    cases w with
    | zero =>
      simp at h
      subst h
      simp only [List.set_cons_zero, List.map_cons, List.sum_cons]
      rw [add_comm (f t') _, add_assoc, add_comm (f x) _, add_assoc]
      rw [add_comm (f t') (f x)]
    | succ w =>
      simp at h
      simp only [List.set_cons_succ, List.map_cons, List.sum_cons]
      rw [add_assoc, ih w h, add_assoc]

theorem pendingSum_set (l : List Worker) (w : Nat) (t t' : Worker) (h : l[w]? = some t) :
    pendingSum (l.set w t') + Multiset.ofList t.pending
      = pendingSum l + Multiset.ofList t'.pending :=
  sum_map_set (fun t => Multiset.ofList t.pending) l w t t' h

theorem pendingSum_append (l l' : List Worker) :
    pendingSum (l ++ l') = pendingSum l + pendingSum l' := by
  simp [pendingSum]

theorem pending_wake (t : Worker) :
    (if t = Worker.waiting then Worker.idle else t).pending = t.pending := by
  cases t <;> simp [Worker.pending]

theorem pendingSum_wakeAll (l : List Worker) : pendingSum (wakeAll l) = pendingSum l := by
  unfold pendingSum wakeAll
  rw [List.map_map]
  congr 1
  apply List.map_congr_left
  intro t _
  simp [Function.comp, pending_wake]

theorem length_wakeAll (l : List Worker) : (wakeAll l).length = l.length := by
  simp [wakeAll]

theorem getElem?_wakeAll_terminated (l : List Worker) (w : Nat) :
    (wakeAll l)[w]? = some Worker.terminated ↔ l[w]? = some Worker.terminated := by
  unfold wakeAll
  rw [List.getElem?_map]
  cases h : l[w]? with
  | none => simp
  | some t => cases t <;> simp

theorem not_waiting_mem_wakeAll (l : List Worker) : Worker.waiting ∉ wakeAll l := by
  unfold wakeAll
  intro h
  rw [List.mem_map] at h
  obtain ⟨t, _, ht⟩ := h
  cases t <;> simp at ht

theorem budget_wakeAll (l : List Worker) :
    ((wakeAll l).map Worker.budget).sum ≤ (l.map Worker.budget).sum + l.length := by
  induction l with
  | nil => simp [wakeAll]
  | cons t ts ih =>
    have : wakeAll (t :: ts) = (if t = Worker.waiting then Worker.idle else t) :: wakeAll ts := rfl
    rw [this]
    simp only [List.map_cons, List.sum_cons, List.length_cons]
    have h1 : (if t = Worker.waiting then Worker.idle else t).budget ≤ t.budget + 1 := by
      cases t <;> simp [Worker.budget]
    omega

/-- What `notify_one` can do to the thread list. -/
theorem wakeOne_cases (l l' : List Worker) (c : Nat) (h : wakeOne l c = some l') :
    (l[c]? = some Worker.waiting ∧ l' = l.set c Worker.idle) ∨ l' = l := by
  unfold wakeOne at h
  split at h
  · next hc => left; exact ⟨hc, by simpa using h.symm⟩
  · split at h
    · simp at h
    · right; simpa using h.symm

theorem wakeOne_enabled (l : List Worker) : ∃ c l', wakeOne l c = some l' := by
  by_cases h : Worker.waiting ∈ l
  · obtain ⟨c, hc⟩ := List.getElem?_of_mem h
    exact ⟨c, l.set c Worker.idle, by simp [wakeOne, hc]⟩
  · exact ⟨0, l, by
      unfold wakeOne
      have : ¬ l[0]? = some Worker.waiting := fun h0 => h (List.mem_iff_getElem?.mpr ⟨0, h0⟩)
      simp [this, h]⟩

theorem takers_append (l : List (Nat × Int)) (w : Nat) (e : Int) :
    takers (l ++ [(w, e)]) = if e = -1 then takers l ++ [w] else takers l := by
  unfold takers
  by_cases h : e = -1 <;> simp [List.filter_append, List.filter_cons, h]

theorem dequeuedBlocks_append (l : List (Nat × Int)) (w : Nat) (e : Int) :
    dequeuedBlocks (l ++ [(w, e)])
      = if e = -1 then dequeuedBlocks l else dequeuedBlocks l ++ [e] := by
  unfold dequeuedBlocks
  by_cases h : e = -1 <;> simp [List.filter_append, List.filter_cons, h]

theorem cellsOf_append (a : Args) (l l' : List Int) :
    cellsOf a (l ++ l') = cellsOf a l + cellsOf a l' := by
  simp [cellsOf]

theorem inv_init {C : Type} (a : Args) (cp : Int → Int → Int → C) :
    Inv a cp (init a : State C) := by
  refine ⟨trivial, rfl, rfl, rfl, ?_, ?_, ?_, ?_, ?_, ?_, ?_, rfl, ?_⟩ <;>
    simp [init, takers, joinedAt, pastNotify, pendingSum, cellsOf, dequeuedBlocks, Image.blank]

theorem blockEvents_succ (i : Int) (h : 0 ≤ i) :
    blockEvents (intRange 0 (i + 1))
      = blockEvents (intRange 0 i)
        ++ [Event.lock, Event.push i, Event.notifyOne, Event.unlock] := by
  rw [intRange_succ 0 i h, blockEvents_append]
  simp [blockEvents]

theorem wakeOne_length (l l' : List Worker) (c : Nat) (h : wakeOne l c = some l') :
    l'.length = l.length := by
  rcases wakeOne_cases l l' c h with ⟨_, rfl⟩ | rfl <;> simp

theorem wakeOne_terminated (l l' : List Worker) (c : Nat) (h : wakeOne l c = some l')
    (w : Nat) : l'[w]? = some Worker.terminated ↔ l[w]? = some Worker.terminated := by
  rcases wakeOne_cases l l' c h with ⟨hc, rfl⟩ | rfl
  · rw [List.getElem?_set]
    by_cases hcw : c = w
    · subst hcw
      rw [hc]
      split <;> simp
    · simp [hcw]
  · rfl

theorem wakeOne_pendingSum (l l' : List Worker) (c : Nat) (h : wakeOne l c = some l') :
    pendingSum l' = pendingSum l := by
  rcases wakeOne_cases l l' c h with ⟨hc, rfl⟩ | rfl
  · simpa [Worker.pending] using pendingSum_set l c Worker.waiting Worker.idle hc
  · rfl

theorem wakeOne_budget (l l' : List Worker) (c : Nat) (h : wakeOne l c = some l') :
    (l'.map Worker.budget).sum ≤ (l.map Worker.budget).sum + 1 := by
  rcases wakeOne_cases l l' c h with ⟨hc, rfl⟩ | rfl
  · have := sum_map_set Worker.budget l c Worker.waiting Worker.idle hc
    simp only [Worker.budget] at this
    omega
  · omega

theorem getElem?_append_idle (l : List Worker) (w : Nat) :
    (l ++ [Worker.idle])[w]? = some Worker.terminated ↔ l[w]? = some Worker.terminated := by
  rw [List.getElem?_append]
  split
  · rfl
  · next h =>
    have h1 : l[w]? = none := List.getElem?_eq_none (by omega)
    rw [h1]
    cases hw : w - l.length with
    | zero => simp
    | succ n => simp

theorem inv_main_step {C : Type} (a : Args) (cp : Int → Int → Int → C) (choice : Nat)
    (st st' : State C) (h : Inv a cp st) (hs : main_step a choice st = some st') :
    Inv a cp st' := by
  obtain ⟨h1, h2, h3, h4, h5, h6, h7, h8, h9, h10, h11, h12, h13⟩ := h
  unfold main_step at hs
  split at hs
  · -- start
    next hpc =>
    rw [hpc] at h2 h4
    have hth : st.threads = [] := List.length_eq_zero.mp (by simpa [spawnedAt] using h4)
    split at hs
    · next hu =>
      cases hs
      refine ⟨hu, ?_, h3, ?_, h5, h6, h7, h8, ?_, ?_, h11, h12, h13⟩
      · simpa [eventsAt] using h2
      · simpa [spawnedAt] using h4
      · simp [joinedAt]
      · simp [pastNotify]
    · next hu =>
      split at hs
      · next hm =>
        cases hs
        refine ⟨Or.inr ⟨rfl, hm, hu⟩, ?_, h3, ?_, h5, h6, h7, h8, ?_, ?_, h11, h12, h13⟩
        · simpa [eventsAt] using h2
        · simpa [spawnedAt] using h4
        · simp [joinedAt]
        · intro _ hw
          simp [hth] at hw
      · next hm =>
        cases hs
        refine ⟨⟨⟨not_not.mp hm, hu⟩, le_refl _, Or.inr rfl⟩, ?_, h3, ?_, h5, h6, h7, h8,
          ?_, ?_, h11, h12, h13⟩
        · simpa [eventsAt] using h2
        · simpa [spawnedAt] using h4
        · simp [joinedAt]
        · simp [pastNotify]
  · -- spawn
    next k hpc =>
    rw [hpc] at h1 h2 h4
    obtain ⟨hm, hk0, hkN⟩ := h1
    simp only [eventsAt, spawnedAt] at h2 h4
    split at hs
    · next hlt =>
      cases hs
      refine ⟨⟨hm, by omega, Or.inl (by omega)⟩, h2, h3, ?_, ?_, ?_, h7, ?_, ?_, ?_, ?_,
        h12, h13⟩
      · simp only [List.length_append, List.length_singleton, spawnedAt]
        omega
      · intro e he
        have := h5 e he
        simp only [List.length_append, List.length_singleton]
        omega
      · intro e he
        have := h6 e he
        simp only [List.length_append, List.length_singleton]
        omega
      · intro w
        rw [getElem?_append_idle]
        exact h8 w
      · simp [joinedAt]
      · simp [pastNotify]
      · rw [pendingSum_append]
        simpa [pendingSum, Worker.pending] using h11
    · next hge =>
      cases hs
      refine ⟨⟨hm, le_refl _, Or.inr rfl⟩, ?_, h3, ?_, h5, h6, h7, h8, ?_, ?_, h11, h12, h13⟩
      · simpa [eventsAt, intRange_empty, blockEvents] using h2
      · simp only [spawnedAt]
        omega
      · simp [joinedAt]
      · simp [pastNotify]
  · -- fill
    next i hpc =>
    rw [hpc] at h1 h2 h4
    obtain ⟨hm, hi0, hiP⟩ := h1
    simp only [eventsAt, spawnedAt] at h2 h4
    split at hs
    · next hlt =>
      split at hs
      · next threads hwake =>
        cases hs
        have hlen := wakeOne_length _ _ _ hwake
        refine ⟨⟨hm, by omega, Or.inl (by omega)⟩, ?_, ?_, ?_, ?_, ?_, h7, ?_, ?_, ?_, ?_,
          h12, h13⟩
        · simp only [eventsAt]
          rw [blockEvents_succ i hi0, h2]
        · simp only [pushed_append, ← h3, List.append_assoc]
          rfl
        · simp only [spawnedAt]
          omega
        · intro e he
          simpa [hlen] using h5 e he
        · intro e he
          simpa [hlen] using h6 e he
        · intro w
          simp only [wakeOne_terminated _ _ _ hwake w]
          exact h8 w
        · simp [joinedAt]
        · simp [pastNotify]
        · simp only [wakeOne_pendingSum _ _ _ hwake]
          exact h11
      · simp at hs
    · next hge =>
      cases hs
      have hr : intRange 0 i = intRange 0 (blockCount a) := by
        rcases hiP with hle | rfl
        · have : i = blockCount a := by omega
          rw [this]
        · rw [intRange_empty 0 0 (le_refl _), intRange_empty 0 _ (by omega)]
      refine ⟨⟨hm, le_refl _, Or.inr rfl⟩, ?_, h3, ?_, h5, h6, h7, h8, ?_, ?_, h11, h12, h13⟩
      · simp only [eventsAt, Int.toNat_zero, tokenEvents, List.append_nil]
        rw [h2, hr]
      · simpa [spawnedAt] using h4
      · simp [joinedAt]
      · simp [pastNotify]
  · -- tokens
    next j hpc =>
    rw [hpc] at h1 h2 h4
    obtain ⟨hm, hj0, hjN⟩ := h1
    simp only [eventsAt, spawnedAt] at h2 h4
    split at hs
    · next hlt =>
      cases hs
      refine ⟨⟨hm, by omega, Or.inl (by omega)⟩, ?_, ?_, ?_, h5, h6, h7, h8, ?_, ?_, h11,
        h12, h13⟩
      · simp only [eventsAt]
        have : (j + 1).toNat = j.toNat + 1 := by omega
        rw [this, tokenEvents, h2, List.append_assoc]
      · simp only [pushed_append, ← h3, List.append_assoc]
        rfl
      · simpa [spawnedAt] using h4
      · simp [joinedAt]
      · simp [pastNotify]
    · next hge =>
      cases hs
      have hn : j.toNat = a.numThreads.toNat := by omega
      refine ⟨⟨hm, le_refl _, Or.inr rfl⟩, ?_, ?_, ?_, ?_, ?_, h7, ?_, ?_, ?_, ?_, h12, h13⟩
      · simp only [eventsAt, fullEvents]
        rw [h2, hn]
      · simp only [pushed_append, ← h3]
        simp [pushed]
      · simpa [spawnedAt, length_wakeAll] using h4
      · intro e he
        simpa [length_wakeAll] using h5 e he
      · intro e he
        simpa [length_wakeAll] using h6 e he
      · intro w
        simp only [getElem?_wakeAll_terminated]
        exact h8 w
      · simp [joinedAt]
      · intro _
        exact not_waiting_mem_wakeAll _
      · simp only [pendingSum_wakeAll]
        exact h11
  · -- join
    next i hpc =>
    rw [hpc] at h1 h2 h4 h9 h10
    obtain ⟨hm, hi0, hiN⟩ := h1
    simp only [eventsAt, spawnedAt, joinedAt] at h2 h4 h9
    split at hs
    · next hlt =>
      split at hs
      · next hterm =>
        cases hs
        refine ⟨⟨hm, by omega, Or.inl (by omega)⟩, h2, h3, h4, h5, h6, h7, h8, ?_, h10, h11,
          h12, h13⟩
        intro w hw
        simp only [joinedAt] at hw
        by_cases hwi : w < i.toNat
        · exact h9 w hwi
        · have : w = i.toNat := by omega
          rw [this]
          exact hterm
      · simp at hs
    · next hge =>
      cases hs
      refine ⟨Or.inl ⟨rfl, hm⟩, ?_, h3, ?_, h5, h6, h7, h8, ?_, ?_, h11, h12, h13⟩
      · simpa [eventsAt] using h2
      · simpa [spawnedAt] using h4
      · intro w hw
        simp only [joinedAt, if_true] at hw
        exact h9 w (by omega)
      · intro _
        exact h10 rfl
  · simp at hs
  · simp at hs

theorem getElem?_set_terminated (l : List Worker) (w : Nat) (t t' : Worker)
    (h : l[w]? = some t) (ht : t ≠ Worker.terminated) (ht' : t' ≠ Worker.terminated)
    (v : Nat) : (l.set w t')[v]? = some Worker.terminated ↔ l[v]? = some Worker.terminated := by
  rw [List.getElem?_set]
  by_cases hwv : w = v
  · subst hwv
    rw [h]
    split <;> simp [ht, ht']
  · simp [hwv]

theorem getElem?_set_terminated_new (l : List Worker) (w : Nat) (t : Worker)
    (h : l[w]? = some t) (v : Nat) :
    (l.set w Worker.terminated)[v]? = some Worker.terminated
      ↔ v = w ∨ l[v]? = some Worker.terminated := by
  rw [List.getElem?_set]
  have hlt : w < l.length := (List.getElem?_eq_some.mp h).1
  by_cases hwv : w = v
  · subst hwv
    simp [hlt]
  · simp [hwv, Ne.symm hwv]

theorem mem_set_waiting (l : List Worker) (w : Nat) (t' : Worker)
    (h : Worker.waiting ∈ l.set w t') : Worker.waiting ∈ l ∨ Worker.waiting = t' :=
  List.mem_or_eq_of_mem_set h

theorem takers_length (l : List (Nat × Int)) :
    (takers l).length = (l.map Prod.snd).count (-1) := by
  unfold takers
  induction l with
  | nil => rfl
  | cons e es ih =>
    by_cases h : e.2 = -1
    · simp [List.filter_cons, h, ← ih]
    · have h' : ¬ (-1 = e.2) := fun h' => h h'.symm
      simp only [List.filter_cons, h, decide_False, List.map_cons, List.count_cons, beq_iff_eq]
      simpa [h] using ih

theorem count_intRange_neg (lo hi : Int) (h : 0 ≤ lo) : (intRange lo hi).count (-1) = 0 := by
  apply List.count_eq_zero_of_not_mem
  rw [mem_intRange]
  omega

/-- A duplicate-free list of numbers below `n` that misses one of them is shorter than `n`. -/
theorem length_lt_of_nodup (l : List Nat) (n w : Nat) (hnd : l.Nodup)
    (hlt : ∀ v ∈ l, v < n) (hw : w < n) (hnot : w ∉ l) : l.length < n := by
  have hsub : (w :: l) ⊆ List.range n := by
    intro v hv
    rw [List.mem_range]
    rcases List.mem_cons.mp hv with rfl | hv
    · exact hw
    · exact hlt v hv
  have := (List.subperm_of_subset (List.nodup_cons.mpr ⟨hnot, hnd⟩) hsub).length_le
  simp only [List.length_cons, List.length_range] at this
  omega

theorem length_ge_of_all_mem (l : List Nat) (n : Nat) (h : ∀ v, v < n → v ∈ l) :
    n ≤ l.length := by
  have hsub : List.range n ⊆ l := fun v hv => h v (List.mem_range.mp hv)
  have := (List.subperm_of_subset (List.nodup_range n) hsub).length_le
  simpa using this

/-- After the final `notify_all`, a worker that has not returned finds an item in the queue. -/
theorem data_ne_nil {C : Type} (a : Args) (cp : Int → Int → Int → C) (st : State C)
    (h : Inv a cp st) (hp : pastNotify st.pc = true) (w : Nat) (t : Worker)
    (hw : st.threads[w]? = some t) (ht : t ≠ Worker.terminated) : st.data ≠ [] := by
  intro hd
  have hwlt : w < st.threads.length := (List.getElem?_eq_some.mp hw).1
  have hq := h.queue_eq
  have hsp := h.spawned
  have hev := h.events_eq
  have hfull : st.events = fullEvents a ∧ st.threads.length = a.numThreads.toNat := by
    cases hpc : st.pc with
    | start => rw [hpc] at hp; simp [pastNotify] at hp
    | spawn k => rw [hpc] at hp; simp [pastNotify] at hp
    | fill k => rw [hpc] at hp; simp [pastNotify] at hp
    | tokens k => rw [hpc] at hp; simp [pastNotify] at hp
    | join k =>
      rw [hpc] at hev hsp
      exact ⟨hev, hsp⟩
    | exited s =>
      rw [hpc] at hev hsp
      simp only [eventsAt, spawnedAt] at hev hsp
      by_cases hs : s = 0
      · simp only [hs, if_true] at hev hsp
        exact ⟨hev, hsp⟩
      · simp only [hs, if_false] at hsp
        omega
    | trapped => rw [hpc] at hp; simp [pastNotify] at hp
  rw [hfull.1, pushed_fullEvents, hd, List.append_nil] at hq
  have hcount : (takers st.deqLog).length = a.numThreads.toNat := by
    rw [takers_length, hq, List.count_append, count_intRange_neg 0 _ (le_refl _)]
    simp
  have hlt := length_lt_of_nodup (takers st.deqLog) st.threads.length w h.takers_nodup
    (fun v hv => by
      have := (h.takers_iff v).mp hv
      exact (List.getElem?_eq_some.mp this).1)
    hwlt
    (fun hmem => by
      have := (h.takers_iff w).mp hmem
      rw [hw] at this
      exact ht (Option.some.inj this))
  omega

theorem inv_thread_func_step {C : Type} (a : Args) (cp : Int → Int → Int → C) (w : Nat)
    (st st' : State C) (h : Inv a cp st) (hs : thread_func_step a cp w st = some st') :
    Inv a cp st' := by
  have hdata := data_ne_nil a cp st h
  obtain ⟨h1, h2, h3, h4, h5, h6, h7, h8, h9, h10, h11, h12, h13⟩ := h
  unfold thread_func_step at hs
  split at hs
  · -- idle
    next hw =>
    have hwlt : w < st.threads.length := (List.getElem?_eq_some.mp hw).1
    split at hs
    · -- empty queue: wait
      next hd =>
      cases hs
      refine ⟨h1, h2, h3, ?_, ?_, ?_, h7, ?_, ?_, ?_, ?_, h12, h13⟩
      · simpa using h4
      · intro e he
        simpa using h5 e he
      · intro e he
        simpa using h6 e he
      · intro v
        simp only [getElem?_set_terminated st.threads w Worker.idle Worker.waiting hw (by simp) (by simp) v]
        exact h8 v
      · intro v hv
        simp only [getElem?_set_terminated st.threads w Worker.idle Worker.waiting hw (by simp) (by simp) v]
        exact h9 v hv
      · intro hp
        exact absurd hd (hdata hp w _ hw (by simp))
      · have := pendingSum_set st.threads w Worker.idle Worker.waiting hw
        simp only [Worker.pending, Multiset.coe_nil, add_zero] at this
        simp only [this]
        exact h11
    · next elem rest hd =>
      rw [hd] at h3
      split at hs
      · -- terminal token
        next he =>
        cases hs
        subst he
        have hnot : w ∉ takers st.deqLog := by
          intro hm
          have := (h8 w).mp hm
          rw [hw] at this
          simp at this
        refine ⟨h1, h2, ?_, ?_, ?_, ?_, ?_, ?_, ?_, ?_, ?_, h12, h13⟩
        · simpa using h3
        · simpa using h4
        · intro e he
          simp only [List.mem_append, List.mem_singleton] at he
          simp only [List.length_set]
          rcases he with he | rfl
          · exact h5 e he
          · exact hwlt
        · intro e he
          simpa using h6 e he
        · rw [takers_append]
          simp only [if_true]
          exact List.Nodup.append h7 (List.nodup_singleton w) (by simpa using hnot)
        · intro v
          rw [takers_append]
          simp only [if_true, List.mem_append, List.mem_singleton,
            getElem?_set_terminated_new _ _ _ hw v]
          rw [h8 v, or_comm]
        · intro v hv
          simp only [getElem?_set_terminated_new _ _ _ hw v]
          exact Or.inr (h9 v hv)
        · intro hp hmem
          rcases mem_set_waiting _ _ _ hmem with hm | hm
          · exact h10 hp hm
          · simp at hm
        · have := pendingSum_set st.threads w Worker.idle Worker.terminated hw
          simp only [Worker.pending, Multiset.coe_nil, add_zero] at this
          simp only [this, dequeuedBlocks_append, if_true]
          exact h11
      · -- block identifier
        next he =>
        cases hs
        refine ⟨h1, h2, ?_, ?_, ?_, ?_, ?_, ?_, ?_, ?_, ?_, h12, h13⟩
        · simpa using h3
        · simpa using h4
        · intro e he
          simp only [List.mem_append, List.mem_singleton] at he
          simp only [List.length_set]
          rcases he with he | rfl
          · exact h5 e he
          · exact hwlt
        · intro e he
          simpa using h6 e he
        · rw [takers_append]
          simpa [he] using h7
        · intro v
          rw [takers_append]
          simp only [he, if_false, getElem?_set_terminated st.threads w Worker.idle
            (Worker.rendering (funcCells elem a.blockSize a.viewPlaneResolutionY)) hw (by simp) (by simp) v]
          exact h8 v
        · intro v hv
          simp only [getElem?_set_terminated st.threads w Worker.idle
            (Worker.rendering (funcCells elem a.blockSize a.viewPlaneResolutionY)) hw (by simp) (by simp) v]
          exact h9 v hv
        · intro hp hmem
          rcases mem_set_waiting _ _ _ hmem with hm | hm
          · exact h10 hp hm
          · simp at hm
        · have := pendingSum_set st.threads w Worker.idle
            (Worker.rendering (funcCells elem a.blockSize a.viewPlaneResolutionY)) hw
          simp only [Worker.pending, Multiset.coe_nil, add_zero] at this
          simp only [this, dequeuedBlocks_append, he, if_false, cellsOf_append]
          rw [← add_assoc, h11]
          simp [cellsOf]
  · -- one pixel
    next x y rest hw =>
    have hwlt : w < st.threads.length := (List.getElem?_eq_some.mp hw).1
    cases hs
    refine ⟨h1, h2, h3, ?_, ?_, ?_, h7, ?_, ?_, ?_, ?_, ?_, ?_⟩
    · simpa using h4
    · intro e he
      simpa using h5 e he
    · intro e he
      simp only [List.mem_append, List.mem_singleton] at he
      simp only [List.length_set]
      rcases he with he | rfl
      · exact h6 e he
      · exact hwlt
    · intro v
      simp only [getElem?_set_terminated st.threads w (Worker.rendering ((x, y) :: rest))
        (Worker.rendering rest) hw (by simp) (by simp) v]
      exact h8 v
    · intro v hv
      simp only [getElem?_set_terminated st.threads w (Worker.rendering ((x, y) :: rest))
        (Worker.rendering rest) hw (by simp) (by simp) v]
      exact h9 v hv
    · intro hp hmem
      rcases mem_set_waiting _ _ _ hmem with hm | hm
      · exact h10 hp hm
      · simp at hm
    · have := pendingSum_set st.threads w (Worker.rendering ((x, y) :: rest))
        (Worker.rendering rest) hw
      simp only [Worker.pending] at this
      rw [← h11]
      simp only [List.map_append, List.map_cons, List.map_nil, ← Multiset.coe_add]
      rw [add_assoc]
      congr 1
      have hsplit : (Multiset.ofList ((x, y) :: rest))
          = Multiset.ofList [(x, y)] + Multiset.ofList rest := by
        simp
      rw [hsplit, ← add_assoc] at this
      rw [add_comm]
      exact add_right_cancel this
    · simp [Image.set, h12]
    · intro x' y'
      simp only [Image.set, List.mem_append, List.mem_singleton, Prod.mk.injEq]
      by_cases hxy : x' = x ∧ y' = y
      · obtain ⟨rfl, rfl⟩ := hxy
        simp
      · simp only [hxy, if_false, or_false]
        exact h13 x' y'
  · -- return of func
    next hw =>
    cases hs
    refine ⟨h1, h2, h3, ?_, ?_, ?_, h7, ?_, ?_, ?_, ?_, h12, h13⟩
    · simpa using h4
    · intro e he
      simpa using h5 e he
    · intro e he
      simpa using h6 e he
    · intro v
      simp only [getElem?_set_terminated st.threads w (Worker.rendering []) Worker.idle hw (by simp) (by simp) v]
      exact h8 v
    · intro v hv
      simp only [getElem?_set_terminated st.threads w (Worker.rendering []) Worker.idle hw (by simp) (by simp) v]
      exact h9 v hv
    · intro hp hmem
      rcases mem_set_waiting _ _ _ hmem with hm | hm
      · exact h10 hp hm
      · simp at hm
    · have := pendingSum_set st.threads w (Worker.rendering []) Worker.idle hw
      simp only [Worker.pending, Multiset.coe_nil, add_zero] at this
      simp only [this]
      exact h11
  · simp at hs

theorem inv_spurious_wake {C : Type} (a : Args) (cp : Int → Int → Int → C) (w : Nat)
    (st st' : State C) (h : Inv a cp st) (hs : spurious_wake w st = some st') :
    Inv a cp st' := by
  obtain ⟨h1, h2, h3, h4, h5, h6, h7, h8, h9, h10, h11, h12, h13⟩ := h
  unfold spurious_wake at hs
  split at hs
  · next hw =>
    cases hs
    refine ⟨h1, h2, h3, ?_, ?_, ?_, h7, ?_, ?_, ?_, ?_, h12, h13⟩
    · simpa using h4
    · intro e he
      simpa using h5 e he
    · intro e he
      simpa using h6 e he
    · intro v
      rw [getElem?_set_terminated st.threads w Worker.waiting Worker.idle hw (by simp)
        (by simp) v]
      exact h8 v
    · intro v hv
      rw [getElem?_set_terminated st.threads w Worker.waiting Worker.idle hw (by simp)
        (by simp) v]
      exact h9 v hv
    · intro hp hmem
      rcases mem_set_waiting _ _ _ hmem with hm | hm
      · exact h10 hp hm
      · simp at hm
    · have := pendingSum_set st.threads w Worker.waiting Worker.idle hw
      simp only [Worker.pending, Multiset.coe_nil, add_zero] at this
      simp only [this]
      exact h11
  · simp at hs

theorem inv_step {C : Type} (a : Args) (cp : Int → Int → Int → C) (m : Move)
    (st st' : State C) (h : Inv a cp st) (hs : step a cp m st = some st') : Inv a cp st' := by
  cases m with
  | main choice => exact inv_main_step a cp choice st st' h hs
  | worker w => exact inv_thread_func_step a cp w st st' h hs
  | wake w => exact inv_spurious_wake a cp w st st' h hs

theorem inv_run {C : Type} (a : Args) (cp : Int → Int → Int → C) (sched : List Move)
    (st : State C) (h : Inv a cp st) : Inv a cp (run a cp sched st) := by
  induction sched generalizing st with
  | nil => exact h
  | cons m ms ih =>
    simp only [run, List.foldl_cons]
    cases hs : step a cp m st with
    | none => exact ih st h
    | some st' => exact ih st' (inv_step a cp m st st' h hs)

theorem inv_reachable {C : Type} (a : Args) (cp : Int → Int → Int → C) (sched : List Move) :
    Inv a cp (run a cp sched (init a)) :=
  inv_run a cp sched _ (inv_init a cp)

theorem main_step_budget {C : Type} (a : Args) (cp : Int → Int → Int → C) (choice : Nat)
    (st st' : State C) (h : Inv a cp st) (hs : main_step a choice st = some st') :
    budget a st' < budget a st := by
  have h1 := h.pc_ok
  have h4 := h.spawned
  unfold main_step at hs
  unfold budget
  split at hs
  · next hpc =>
    rw [hpc]
    split at hs
    · cases hs
      simp only [mainBudget]
      omega
    · split at hs
      · cases hs
        simp only [mainBudget]
        omega
      · cases hs
        simp only [mainBudget, sub_zero]
        omega
  · next k hpc =>
    rw [hpc] at h1 ⊢
    obtain ⟨_, hk0, hkN⟩ := h1
    split at hs
    · next hlt =>
      cases hs
      simp only [mainBudget, List.map_append, List.sum_append, List.map_cons, List.map_nil,
        List.sum_cons, List.sum_nil, Worker.budget]
      have : (a.numThreads - k).toNat = (a.numThreads - (k + 1)).toNat + 1 := by omega
      omega
    · cases hs
      simp only [mainBudget]
      omega
  · next i hpc =>
    rw [hpc] at h1 ⊢
    obtain ⟨_, hi0, hiP⟩ := h1
    split at hs
    · next hlt =>
      split at hs
      · next threads hwake =>
        cases hs
        have hb := wakeOne_budget _ _ _ hwake
        simp only [mainBudget, intRange_cons i (blockCount a) hlt, List.map_append,
          List.sum_append,
          List.map_cons, List.map_nil, List.sum_cons, List.sum_nil]
        omega
      · simp at hs
    · next hge =>
      cases hs
      simp only [mainBudget, intRange_empty i (blockCount a) (by omega), List.map_nil,
        List.sum_nil, sub_zero]
      omega
  · next j hpc =>
    rw [hpc] at h1 h4 ⊢
    obtain ⟨_, hj0, hjN⟩ := h1
    simp only [spawnedAt] at h4
    split at hs
    · next hlt =>
      cases hs
      simp only [mainBudget, List.map_append, List.sum_append, List.map_cons, List.map_nil,
        List.sum_cons, List.sum_nil, itemBudget, if_true]
      have : (a.numThreads - j).toNat = (a.numThreads - (j + 1)).toNat + 1 := by omega
      omega
    · next hge =>
      cases hs
      have hb := budget_wakeAll st.threads
      simp only [mainBudget, sub_zero]
      omega
  · next i hpc =>
    rw [hpc] at h1 ⊢
    obtain ⟨_, hi0, hiN⟩ := h1
    split at hs
    · next hlt =>
      split at hs
      · cases hs
        simp only [mainBudget]
        have : (a.numThreads - i).toNat = (a.numThreads - (i + 1)).toNat + 1 := by omega
        omega
      · simp at hs
    · cases hs
      simp only [mainBudget]
      omega
  · simp at hs
  · simp at hs

theorem thread_func_step_budget {C : Type} (a : Args) (cp : Int → Int → Int → C) (w : Nat)
    (st st' : State C) (hs : thread_func_step a cp w st = some st') :
    budget a st' < budget a st := by
  unfold thread_func_step at hs
  unfold budget
  split at hs
  · next hw =>
    split at hs
    · next hd =>
      cases hs
      have := sum_map_set Worker.budget st.threads w Worker.idle Worker.waiting hw
      simp only [Worker.budget] at this
      simp only
      omega
    · next elem rest hd =>
      rw [hd]
      split at hs
      · next he =>
        cases hs
        have := sum_map_set Worker.budget st.threads w Worker.idle Worker.terminated hw
        simp only [Worker.budget] at this
        simp only [List.map_cons, List.sum_cons]
        omega
      · next he =>
        cases hs
        have := sum_map_set Worker.budget st.threads w Worker.idle
          (Worker.rendering (funcCells elem a.blockSize a.viewPlaneResolutionY)) hw
        simp only [Worker.budget] at this
        simp only [List.map_cons, List.sum_cons, itemBudget, he, if_false]
        omega
  · next x y rest hw =>
    cases hs
    have := sum_map_set Worker.budget st.threads w (Worker.rendering ((x, y) :: rest))
      (Worker.rendering rest) hw
    simp only [Worker.budget, List.length_cons] at this
    simp only
    omega
  · next hw =>
    cases hs
    have := sum_map_set Worker.budget st.threads w (Worker.rendering []) Worker.idle hw
    simp only [Worker.budget, List.length_nil] at this
    simp only
    omega
  · simp at hs

theorem step_budget {C : Type} (a : Args) (cp : Int → Int → Int → C) (m : Move)
    (st st' : State C) (h : Inv a cp st) (hm : m.isWake = false)
    (hs : step a cp m st = some st') : budget a st' < budget a st := by
  cases m with
  | main choice => exact main_step_budget a cp choice st st' h hs
  | worker w => exact thread_func_step_budget a cp w st st' hs
  | wake w => simp [Move.isWake] at hm

theorem executed_le_budget {C : Type} (a : Args) (cp : Int → Int → Int → C)
    (sched : List Move) (st : State C) (h : Inv a cp st) (hnw : noWake sched) :
    executed a cp sched st + budget a (run a cp sched st) ≤ budget a st := by
  induction sched generalizing st with
  | nil => simp [executed, run]
  | cons m ms ih =>
    have hm : m.isWake = false := hnw m (List.mem_cons_self _ _)
    have hms : noWake ms := fun m' hm' => hnw m' (List.mem_cons_of_mem _ hm')
    simp only [run, List.foldl_cons, executed]
    cases hs : step a cp m st with
    | none => exact ih st h hms
    | some st' =>
      have h1 := ih st' (inv_step a cp m st st' h hs) hms
      have h2 := step_budget a cp m st st' h hm hs
      simp only [Option.getD_some]
      simp only [run] at h1
      omega

/-- No deadlock: until `main` has returned, `main` or some worker can move. -/
theorem progress {C : Type} (a : Args) (cp : Int → Int → Int → C) (st : State C)
    (h : Inv a cp st) (hpc : ∀ s, st.pc ≠ Pc.exited s) (htr : st.pc ≠ Pc.trapped) :
    (∃ choice st', main_step a choice st = some st')
      ∨ ∃ w st', thread_func_step a cp w st = some st' := by
  cases hp : st.pc with
  | start =>
    refine Or.inl ⟨0, ?_⟩
    simp only [main_step, hp]
    split
    · exact ⟨_, rfl⟩
    · split <;> exact ⟨_, rfl⟩
  | spawn k =>
    refine Or.inl ⟨0, ?_⟩
    simp only [main_step, hp]
    split <;> exact ⟨_, rfl⟩
  | fill i =>
    obtain ⟨c, l', hc⟩ := wakeOne_enabled st.threads
    refine Or.inl ⟨c, ?_⟩
    simp only [main_step, hp, hc]
    split <;> exact ⟨_, rfl⟩
  | tokens j =>
    refine Or.inl ⟨0, ?_⟩
    simp only [main_step, hp]
    split <;> exact ⟨_, rfl⟩
  | join i =>
    by_cases hlt : i < a.numThreads
    · by_cases hterm : st.threads[i.toNat]? = some Worker.terminated
      · refine Or.inl ⟨0, ?_⟩
        simp only [main_step, hp, hlt, hterm, if_true]
        exact ⟨_, rfl⟩
      · have h1 := h.pc_ok
        have h4 := h.spawned
        have h10 := h.no_waiting
        rw [hp] at h1 h4 h10
        simp only [spawnedAt] at h4
        have hi : i.toNat < st.threads.length := by
          have := h1.2.1
          omega
        have hget : st.threads[i.toNat]? = some st.threads[i.toNat] :=
          List.getElem?_eq_getElem hi
        refine Or.inr ⟨i.toNat, ?_⟩
        simp only [thread_func_step]
        cases ht : st.threads[i.toNat] with
        | idle =>
          rw [hget, ht]
          cases hd : st.data with
          | nil => exact ⟨_, rfl⟩
          | cons e r =>
            simp only
            split <;> exact ⟨_, rfl⟩
        | waiting =>
          exfalso
          apply h10 rfl
          rw [← ht]
          exact List.getElem_mem hi
        | rendering p =>
          rw [hget, ht]
          cases p with
          | nil => exact ⟨_, rfl⟩
          | cons c r => exact ⟨_, rfl⟩
        | terminated =>
          rw [hget, ht] at hterm
          exact absurd rfl hterm
    · refine Or.inl ⟨0, ?_⟩
      simp only [main_step, hp, hlt, if_false]
      exact ⟨_, rfl⟩
  | exited s => exact absurd hp (hpc s)
  | trapped => exact absurd hp htr

/-- The same, as a scheduling decision that is no spurious wake-up. -/
theorem progress_move {C : Type} (a : Args) (cp : Int → Int → Int → C) (st : State C)
    (h : Inv a cp st) (hpc : ∀ s, st.pc ≠ Pc.exited s) (htr : st.pc ≠ Pc.trapped) :
    ∃ m st', m.isWake = false ∧ step a cp m st = some st' := by
  rcases progress a cp st h hpc htr with ⟨c, st', hs⟩ | ⟨w, st', hs⟩
  · exact ⟨Move.main c, st', rfl, hs⟩
  · exact ⟨Move.worker w, st', rfl, hs⟩

/-- When the remainder of line 96 has a value `main` is never killed. -/
theorem not_trapped {C : Type} (a : Args) (cp : Int → Int → Int → C) (st : State C)
    (h : Inv a cp st) (hu : ¬ remainderUndefined a) : st.pc ≠ Pc.trapped := by
  intro hpc
  have := h.pc_ok
  rw [hpc] at this
  exact hu this

theorem not_stuck {C : Type} (a : Args) (cp : Int → Int → Int → C) (st : State C)
    (h : Inv a cp st) (hpc : ∀ s, st.pc ≠ Pc.exited s) (htr : st.pc ≠ Pc.trapped) :
    ¬ stuck a cp st := by
  intro hstuck
  rcases progress a cp st h hpc htr with ⟨c, st', hs⟩ | ⟨w, st', hs⟩
  · rw [hstuck.1 c] at hs
    simp at hs
  · rw [hstuck.2 w] at hs
    simp at hs

/-- When the remainder of line 96 has a value, every state of a run can be
continued, without spurious wake-up, until `main` has returned. -/
theorem completion {C : Type} (a : Args) (cp : Int → Int → Int → C)
    (hu : ¬ remainderUndefined a) (n : Nat) :
    ∀ st : State C, Inv a cp st → budget a st ≤ n →
      ∃ sched s, noWake sched ∧ (run a cp sched st).pc = Pc.exited s := by
  induction n with
  | zero =>
    intro st h hb
    by_cases hpc : ∃ s, st.pc = Pc.exited s
    · obtain ⟨s, hs⟩ := hpc
      exact ⟨[], s, fun _ hm => absurd hm (List.not_mem_nil _), hs⟩
    · obtain ⟨m, st', hm, hs⟩ := progress_move a cp st h (fun s hs => hpc ⟨s, hs⟩)
        (not_trapped a cp st h hu)
      have := step_budget a cp m st st' h hm hs
      omega
  | succ n ih =>
    intro st h hb
    by_cases hpc : ∃ s, st.pc = Pc.exited s
    · obtain ⟨s, hs⟩ := hpc
      exact ⟨[], s, fun _ hm => absurd hm (List.not_mem_nil _), hs⟩
    · obtain ⟨m, st', hm, hs⟩ := progress_move a cp st h (fun s hs => hpc ⟨s, hs⟩)
        (not_trapped a cp st h hu)
      have hlt := step_budget a cp m st st' h hm hs
      obtain ⟨sched, s, hnw, hfin⟩ := ih st' (inv_step a cp m st st' h hs) (by omega)
      refine ⟨m :: sched, s, ?_, ?_⟩
      · intro m' hm'
        rcases List.mem_cons.mp hm' with rfl | hin
        · exact hm
        · exact hnw m' hin
      · simpa [run, hs] using hfin

/-- A valid partition has a positive block size: the remainder has a value. -/
theorem valid_defined (a : Args) (h : Valid a) : ¬ remainderUndefined a := by
  obtain ⟨_, _, hB, _⟩ := h
  rintro (h0 | ⟨_, h1⟩) <;> omega

theorem wrapInt_eq (n : Int) (h : isInt n) : wrapInt n = n := by
  unfold isInt at h
  unfold wrapInt
  omega

theorem valid_blockCount (a : Args) (h : Valid a) :
    blockCount a = a.viewPlaneResolutionX / a.blockSize
      ∧ 0 ≤ a.viewPlaneResolutionX / a.blockSize
      ∧ a.viewPlaneResolutionX / a.blockSize * a.blockSize = a.viewPlaneResolutionX := by
  obtain ⟨hW0, hW1, hB, hm⟩ := h
  have hB0 : (0 : Int) ≤ a.blockSize := by omega
  rw [Int.tmod_eq_emod hW0 hB0] at hm
  have hq0 : 0 ≤ a.viewPlaneResolutionX / a.blockSize := Int.ediv_nonneg hW0 hB0
  have hmul : a.viewPlaneResolutionX / a.blockSize * a.blockSize = a.viewPlaneResolutionX := by
    have := Int.ediv_add_emod a.viewPlaneResolutionX a.blockSize
    rw [hm, add_zero, mul_comm] at this
    exact this
  have hqle : a.viewPlaneResolutionX / a.blockSize ≤ a.viewPlaneResolutionX := by
    nlinarith
  refine ⟨?_, hq0, hmul⟩
  unfold blockCount
  rw [Int.tdiv_eq_ediv hW0 hB0]
  exact wrapInt_eq _ ⟨by omega, by omega⟩

/-- Under a valid partition the bounds of a block do not overflow. -/
theorem valid_block_bounds (a : Args) (h : Valid a) (i : Int) (hi0 : 0 ≤ i)
    (hi1 : i < a.viewPlaneResolutionX / a.blockSize) :
    blockLo i a.blockSize = i * a.blockSize
      ∧ blockHi i a.blockSize = i * a.blockSize + a.blockSize
      ∧ i * a.blockSize + a.blockSize ≤ a.viewPlaneResolutionX := by
  obtain ⟨_, _, hmul⟩ := valid_blockCount a h
  obtain ⟨hW0, hW1, hB, hm⟩ := h
  have h1 : 0 ≤ i * a.blockSize := by positivity
  have h2 : i * a.blockSize + a.blockSize ≤ a.viewPlaneResolutionX := by nlinarith
  have hlo : blockLo i a.blockSize = i * a.blockSize := by
    unfold blockLo
    exact wrapInt_eq _ ⟨by omega, by omega⟩
  refine ⟨hlo, ?_, h2⟩
  unfold blockHi
  rw [hlo]
  exact wrapInt_eq _ ⟨by omega, by omega⟩

theorem foldl_append_eq {α β : Type} (f : α → List β) (l : List α) (init : List β) :
    l.foldl (fun acc x => acc ++ f x) init = init ++ l.flatMap f := by
  induction l generalizing init with
  | nil => simp
  | cons x xs ih => simp [ih]

theorem funcCells_eq (elem blockSize resolutionY : Int) :
    funcCells elem blockSize resolutionY
      = (funcColumns elem blockSize).flatMap
          (fun x => (intRange 0 resolutionY).map (fun y => (x, y))) := by
  unfold funcCells funcColumns
  rw [forLoop_eq_foldl]
  have hin : ∀ (x : Int) (acc : List (Int × Int)),
      forLoop 0 resolutionY (fun y acc => acc ++ [(x, y)]) acc
        = acc ++ (intRange 0 resolutionY).map (fun y => (x, y)) := by
    intro x acc
    rw [forLoop_eq_foldl, foldl_append_eq (fun y => [(x, y)])]
    congr 1
    induction intRange 0 resolutionY with
    | nil => rfl
    | cons y ys ih => simp [ih]
  simp only [hin]
  rw [foldl_append_eq]
  simp

theorem mem_funcCells (elem blockSize resolutionY x y : Int) :
    (x, y) ∈ funcCells elem blockSize resolutionY
      ↔ blockLo elem blockSize ≤ x ∧ x < blockHi elem blockSize ∧ 0 ≤ y ∧ y < resolutionY := by
  rw [funcCells_eq]
  simp only [List.mem_flatMap, List.mem_map, funcColumns, mem_intRange, Prod.mk.injEq]
  constructor
  · rintro ⟨x', ⟨h1, h2⟩, y', ⟨h3, h4⟩, rfl, rfl⟩
    exact ⟨h1, h2, h3, h4⟩
  · rintro ⟨h1, h2, h3, h4⟩
    exact ⟨x, ⟨h1, h2⟩, y, ⟨h3, h4⟩, rfl, rfl⟩

theorem nodup_funcCells (elem blockSize resolutionY : Int) :
    (funcCells elem blockSize resolutionY).Nodup := by
  rw [funcCells_eq, List.nodup_flatMap]
  constructor
  · intro x _
    apply List.Nodup.map _ (nodup_intRange _ _)
    intro y y' h
    simpa using h
  · apply List.Nodup.pairwise_of_forall_ne (nodup_intRange _ _)
    intro x _ x' _ hne
    simp only [Function.onFun]
    intro c hc hc'
    simp only [List.mem_map] at hc hc'
    obtain ⟨y, _, rfl⟩ := hc
    obtain ⟨y', _, h⟩ := hc'
    simp only [Prod.mk.injEq] at h
    exact hne h.1.symm

theorem func_eq_foldl {C : Type} (cp : Int → Int → Int → C) (image : Image C)
    (elem blockSize resolutionY numOfSamples : Int) :
    func cp image elem blockSize resolutionY numOfSamples
      = (funcCells elem blockSize resolutionY).foldl
          (fun img c => img.set c.1 c.2 (cp c.1 c.2 numOfSamples)) image := by
  rw [funcCells_eq]
  unfold func funcColumns
  rw [forLoop_eq_foldl]
  have hin : ∀ (x : Int) (img : Image C),
      forLoop 0 resolutionY (fun y img => img.set x y (cp x y numOfSamples)) img
        = ((intRange 0 resolutionY).map (fun y => (x, y))).foldl
            (fun img c => img.set c.1 c.2 (cp c.1 c.2 numOfSamples)) img := by
    intro x img
    rw [forLoop_eq_foldl, List.foldl_map]
  simp only [hin]
  generalize intRange (blockLo elem blockSize) (blockHi elem blockSize) = xs
  induction xs generalizing image with
  | nil => rfl
  | cons x xs ih => simp [List.foldl_append, ih]

theorem foldl_set_size {C : Type} (f : Int → Int → C) (l : List (Int × Int))
    (image : Image C) :
    (l.foldl (fun img c => img.set c.1 c.2 (f c.1 c.2)) image).width = image.width
      ∧ (l.foldl (fun img c => img.set c.1 c.2 (f c.1 c.2)) image).height = image.height := by
  induction l generalizing image with
  | nil => simp
  | cons c cs ih =>
    rw [List.foldl_cons]
    exact ih _

theorem intRange_append (lo m hi : Int) (h1 : lo ≤ m) (h2 : m ≤ hi) :
    intRange lo hi = intRange lo m ++ intRange m hi := by
  obtain ⟨n, rfl⟩ : ∃ n : Nat, m = lo + n := ⟨(m - lo).toNat, by omega⟩
  clear h1
  induction n with
  | zero => simp [intRange_empty lo lo (le_refl _)]
  | succ n ih =>
    have hlt : lo + (n : Int) < hi := by push_cast at h2; omega
    have e : lo + ((n + 1 : Nat) : Int) = lo + (n : Int) + 1 := by push_cast; ring
    rw [e, intRange_succ lo _ (by omega), ih (by omega), List.append_assoc,
      intRange_cons _ hi hlt]
    rfl

theorem intRange_initial (lo m hi : Int) (h1 : lo ≤ m) (h2 : m ≤ hi) :
    intRange lo m <+: intRange lo hi :=
  ⟨intRange m hi, (intRange_append lo m hi h1 h2).symm⟩

theorem replicate_initial (n m : Nat) (h : n ≤ m) (x : Int) :
    List.replicate n x <+: List.replicate m x := by
  obtain ⟨k, rfl⟩ := Nat.exists_eq_add_of_le h
  exact ⟨List.replicate k x, by rw [List.replicate_add]⟩

/-- The items of a whole run: the block identifiers, then one token for each thread. -/
theorem pushed_eventsAt_initial (a : Args) (pc : Pc) (h : pcOk a pc) :
    pushed (eventsAt a pc)
      <+: intRange 0 (blockCount a) ++ List.replicate a.numThreads.toNat (-1) := by
  cases pc with
  | start => exact List.nil_prefix
  | spawn k => exact List.nil_prefix
  | fill i =>
    obtain ⟨_, hi0, hiP⟩ := h
    simp only [eventsAt, pushed_blockEvents]
    rcases hiP with hle | rfl
    · exact (intRange_initial 0 i _ hi0 hle).trans (List.prefix_append _ _)
    · rw [intRange_empty 0 0 (le_refl _)]
      exact List.nil_prefix
  | tokens j =>
    obtain ⟨_, hj0, hjN⟩ := h
    simp only [eventsAt, pushed_append, pushed_blockEvents, pushed_tokenEvents]
    exact (List.prefix_append_right_inj _).mpr (replicate_initial _ _ (by omega) _)
  | join i =>
    simp only [eventsAt, pushed_fullEvents]
    exact List.prefix_refl _
  | exited s =>
    simp only [eventsAt]
    split
    · rw [pushed_fullEvents]
    · exact List.nil_prefix
  | trapped => exact List.nil_prefix

theorem filter_full (P : Int) (n : Nat) :
    (intRange 0 P ++ List.replicate n (-1)).filter (fun e => decide (e ≠ -1)) = intRange 0 P := by
  rw [List.filter_append]
  have h1 : (intRange 0 P).filter (fun e => decide (e ≠ -1)) = intRange 0 P := by
    apply List.filter_eq_self.mpr
    intro e he
    rw [mem_intRange] at he
    simp only [ne_eq, decide_not, Bool.not_eq_true', decide_eq_false_iff_not]
    omega
  have h2 : (List.replicate n (-1 : Int)).filter (fun e => decide (e ≠ -1)) = [] := by
    apply List.filter_eq_nil_iff.mpr
    intro e he
    simp [List.eq_of_mem_replicate he]
  rw [h1, h2, List.append_nil]

theorem exited_zero_events {C : Type} (a : Args) (cp : Int → Int → Int → C) (st : State C)
    (h : Inv a cp st) (hpc : st.pc = Pc.exited 0) : st.events = fullEvents a := by
  have := h.events_eq
  rw [hpc] at this
  simpa [eventsAt] using this

theorem block_unique (B i j x : Int) (hB : 1 ≤ B) (hi : i * B ≤ x ∧ x < i * B + B)
    (hj : j * B ≤ x ∧ x < j * B + B) : i = j := by
  rcases lt_trichotomy i j with h | h | h
  · exfalso
    have : (i + 1) * B ≤ j * B := Int.mul_le_mul_of_nonneg_right (by omega) (by omega)
    have e : (i + 1) * B = i * B + B := by ring
    omega
  · exact h
  · exfalso
    have : (j + 1) * B ≤ i * B := Int.mul_le_mul_of_nonneg_right (by omega) (by omega)
    have e : (j + 1) * B = j * B + B := by ring
    omega

theorem block_exists (B W x : Int) (hB : 1 ≤ B) (hx0 : 0 ≤ x) (hxW : x < W)
    (hmul : W / B * B = W) :
    0 ≤ x / B ∧ x / B < W / B ∧ x / B * B ≤ x ∧ x < x / B * B + B := by
  have hBpos : 0 < B := by omega
  have h1 : 0 ≤ x / B := Int.ediv_nonneg hx0 (by omega)
  have h3 : x / B * B ≤ x := Int.ediv_mul_le x (by omega)
  have h4 : x < x / B * B + B := by
    have := Int.lt_ediv_add_one_mul_self x hBpos
    have e : (x / B + 1) * B = x / B * B + B := by ring
    omega
  refine ⟨h1, ?_, h3, h4⟩
  by_contra hcon
  have hle : W / B ≤ x / B := by omega
  have : W / B * B ≤ x / B * B := Int.mul_le_mul_of_nonneg_right hle (by omega)
  omega

theorem mem_funcColumns_valid (a : Args) (h : Valid a) (i x : Int) (hi0 : 0 ≤ i)
    (hi1 : i < a.viewPlaneResolutionX / a.blockSize) :
    x ∈ funcColumns i a.blockSize ↔ i * a.blockSize ≤ x ∧ x < i * a.blockSize + a.blockSize := by
  obtain ⟨hlo, hhi, _⟩ := valid_block_bounds a h i hi0 hi1
  unfold funcColumns
  rw [mem_intRange, hlo, hhi]

theorem cellsOf_eq (a : Args) (ids : List Int) :
    cellsOf a ids = Multiset.ofList (blocksCells a ids) := by
  unfold cellsOf blocksCells
  induction ids with
  | nil => rfl
  | cons e es ih =>
    simp only [List.map_cons, List.sum_cons, List.flatMap_cons, ih, Multiset.coe_add]

theorem mem_blocksCells_valid (a : Args) (h : Valid a) (x y : Int) :
    (x, y) ∈ blocksCells a (intRange 0 (blockCount a))
      ↔ (0 ≤ x ∧ x < a.viewPlaneResolutionX) ∧ 0 ≤ y ∧ y < a.viewPlaneResolutionY := by
  obtain ⟨hP, hP0, hmul⟩ := valid_blockCount a h
  rw [hP]
  unfold blocksCells
  simp only [List.mem_flatMap, mem_intRange, mem_funcCells]
  constructor
  · rintro ⟨i, ⟨hi0, hi1⟩, h1, h2, h3, h4⟩
    obtain ⟨hlo, hhi, hle⟩ := valid_block_bounds a h i hi0 hi1
    rw [hlo] at h1
    rw [hhi] at h2
    have : 0 ≤ i * a.blockSize := mul_nonneg hi0 (by have := h.2.2.1; omega)
    exact ⟨⟨by omega, by omega⟩, h3, h4⟩
  · rintro ⟨⟨hx0, hxW⟩, h3, h4⟩
    obtain ⟨b1, b2, b3, b4⟩ := block_exists a.blockSize a.viewPlaneResolutionX x h.2.2.1 hx0 hxW hmul
    obtain ⟨hlo, hhi, hle⟩ := valid_block_bounds a h _ b1 b2
    exact ⟨x / a.blockSize, ⟨b1, b2⟩, by rw [hlo]; exact b3, by rw [hhi]; exact b4, h3, h4⟩

theorem nodup_blocksCells_valid (a : Args) (h : Valid a) :
    (blocksCells a (intRange 0 (blockCount a))).Nodup := by
  obtain ⟨hP, hP0, hmul⟩ := valid_blockCount a h
  rw [hP]
  unfold blocksCells
  rw [List.nodup_flatMap]
  constructor
  · intro i _
    exact nodup_funcCells _ _ _
  · apply List.Nodup.pairwise_of_forall_ne (nodup_intRange _ _)
    intro i hi j hj hne
    rw [mem_intRange] at hi hj
    simp only [Function.onFun]
    rintro ⟨x, y⟩ hc hc'
    rw [mem_funcCells] at hc hc'
    obtain ⟨hlo, hhi, _⟩ := valid_block_bounds a h i hi.1 hi.2
    obtain ⟨hlo', hhi', _⟩ := valid_block_bounds a h j hj.1 hj.2
    rw [hlo, hhi] at hc
    rw [hlo', hhi'] at hc'
    exact hne (block_unique a.blockSize i j x h.2.2.1 ⟨hc.1, hc.2.1⟩ ⟨hc'.1, hc'.2.1⟩)

theorem cellsOf_sublist (a : Args) (l l' : List Int) (h : l.Sublist l') :
    cellsOf a l ≤ cellsOf a l' := by
  induction h with
  | slnil => exact le_refl _
  | cons x _ ih =>
    simp only [cellsOf, List.map_cons, List.sum_cons] at ih ⊢
    exact le_trans ih (Multiset.le_add_left _ _)
  | cons₂ x _ ih =>
    simp only [cellsOf, List.map_cons, List.sum_cons] at ih ⊢
    exact add_le_add_left ih _

/-- The blocks popped so far are among the blocks of the partition, each at most once. -/
theorem dequeuedBlocks_sublist {C : Type} (a : Args) (cp : Int → Int → Int → C) (st : State C)
    (h : Inv a cp st) : (dequeuedBlocks st.deqLog).Sublist (intRange 0 (blockCount a)) := by
  have hq := h.queue_eq
  rw [h.events_eq] at hq
  have hpre := pushed_eventsAt_initial a st.pc h.pc_ok
  rw [← hq] at hpre
  have h1 : (st.deqLog.map Prod.snd) <+:
      intRange 0 (blockCount a) ++ List.replicate a.numThreads.toNat (-1) :=
    (List.prefix_append _ _).trans hpre
  have h2 := (h1.sublist).filter (fun e => decide (e ≠ -1))
  rw [filter_full] at h2
  exact h2

/-- In every state of a run with a valid partition no pixel has been written twice. -/
theorem nodup_writes {C : Type} (a : Args) (cp : Int → Int → Int → C) (st : State C)
    (hv : Valid a) (h : Inv a cp st) : (st.writeLog.map Prod.snd).Nodup := by
  have h1 : Multiset.ofList (st.writeLog.map Prod.snd) ≤ cellsOf a (dequeuedBlocks st.deqLog) := by
    rw [← h.cells_eq]
    exact Multiset.le_add_right _ _
  have h2 := le_trans h1 (cellsOf_sublist a _ _ (dequeuedBlocks_sublist a cp st h))
  rw [cellsOf_eq] at h2
  have h3 := Multiset.nodup_of_le h2 (Multiset.coe_nodup.mpr (nodup_blocksCells_valid a hv))
  exact Multiset.coe_nodup.mp h3

theorem run_append {C : Type} (a : Args) (cp : Int → Int → Int → C) (s1 s2 : List Move)
    (st : State C) : run a cp (s1 ++ s2) st = run a cp s2 (run a cp s1 st) := by
  simp [run, List.foldl_append]

theorem takers_count (l : List (Nat × Int)) (w : Nat) :
    (takers l).count w = l.count (w, -1) := by
  unfold takers
  induction l with
  | nil => rfl
  | cons e es ih =>
    obtain ⟨v, i⟩ := e
    by_cases hi : i = -1
    · subst hi
      simp only [List.filter_cons, decide_True, if_true, List.map_cons, List.count_cons, ih,
        beq_iff_eq, Prod.mk.injEq, and_true]
    · have hne : ¬ ((v, i) = (w, -1)) := fun h => hi (Prod.mk.inj h).2
      simp only [List.filter_cons, hi, decide_False, List.count_cons, beq_iff_eq, hne,
        if_false, add_zero]
      simpa using ih

/-- Once `main` has returned with status 0 every worker thread has returned. -/
theorem final_threads {C : Type} (a : Args) (cp : Int → Int → Int → C) (st : State C)
    (h : Inv a cp st) (hpc : st.pc = Pc.exited 0) :
    st.threads = List.replicate a.numThreads.toNat Worker.terminated := by
  have hlen := h.spawned
  have hj := h.joined
  rw [hpc] at hlen hj
  simp only [spawnedAt, joinedAt, if_true] at hlen hj
  rw [List.eq_replicate_iff]
  refine ⟨hlen, ?_⟩
  intro t ht
  obtain ⟨n, hn⟩ := List.mem_iff_getElem?.mp ht
  have hlt : n < st.threads.length := (List.getElem?_eq_some.mp hn).1
  have := hj n (by omega)
  rw [hn] at this
  exact Option.some.inj this

theorem pendingSum_replicate_terminated (n : Nat) :
    pendingSum (List.replicate n Worker.terminated) = 0 := by
  induction n with
  | zero => rfl
  | succ n ih =>
    simp only [pendingSum, List.replicate_succ, List.map_cons, List.sum_cons, Worker.pending,
      Multiset.coe_nil, zero_add] at ih ⊢
    exact ih

/-- With at least one worker, the queue is empty once `main` has returned: every
block identifier and every token has been popped, in the order of the pushes. -/
theorem final_queue {C : Type} (a : Args) (cp : Int → Int → Int → C) (st : State C)
    (h : Inv a cp st) (hpc : st.pc = Pc.exited 0) (hN : 1 ≤ a.numThreads) :
    st.data = []
      ∧ st.deqLog.map Prod.snd
        = intRange 0 (blockCount a) ++ List.replicate a.numThreads.toNat (-1) := by
  have hq := h.queue_eq
  rw [exited_zero_events a cp st h hpc, pushed_fullEvents] at hq
  have hj := h.joined
  rw [hpc] at hj
  simp only [joinedAt, if_true] at hj
  have hall : ∀ v, v < a.numThreads.toNat → v ∈ takers st.deqLog :=
    fun v hv => (h.takers_iff v).mpr (hj v hv)
  have hge := length_ge_of_all_mem _ _ hall
  rw [takers_length] at hge
  have hcount := congrArg (List.count (-1)) hq
  rw [List.count_append, List.count_append, count_intRange_neg 0 _ (le_refl _)] at hcount
  simp only [List.count_replicate_self, zero_add] at hcount
  have hd0 : st.data.count (-1) = 0 := by omega
  have h0 : (0 : Nat) ∈ takers st.deqLog := hall 0 (by omega)
  have hneg : (-1 : Int) ∈ st.deqLog.map Prod.snd := by
    unfold takers at h0
    simp only [List.mem_map, List.mem_filter, decide_eq_true_eq] at h0 ⊢
    obtain ⟨e, ⟨he, he2⟩, _⟩ := h0
    exact ⟨e, he, he2⟩
  have hdata : st.data = [] := by
    rcases List.append_eq_append_iff.mp hq with ⟨a', ha', _⟩ | ⟨c', _, hc'⟩
    · exfalso
      have : (-1 : Int) ∈ intRange 0 (blockCount a) := by
        rw [ha']
        exact List.mem_append_left _ hneg
      rw [mem_intRange] at this
      omega
    · cases hd : st.data with
      | nil => rfl
      | cons e es =>
        exfalso
        have hmem : e ∈ List.replicate a.numThreads.toNat (-1 : Int) := by
          rw [hc', hd]
          exact List.mem_append_right _ (List.mem_cons_self _ _)
        have he := List.eq_of_mem_replicate hmem
        rw [hd, he] at hd0
        simp at hd0
  refine ⟨hdata, ?_⟩
  rw [hdata, List.append_nil] at hq
  exact hq

/-- The pixels written by a finished run with at least one worker are the
pixels of the blocks of the partition, each once. -/
theorem final_writes {C : Type} (a : Args) (cp : Int → Int → Int → C) (st : State C)
    (h : Inv a cp st) (hpc : st.pc = Pc.exited 0) (hN : 1 ≤ a.numThreads) :
    (st.writeLog.map Prod.snd).Perm (blocksCells a (intRange 0 (blockCount a))) := by
  have hc := h.cells_eq
  have hdq : dequeuedBlocks st.deqLog = intRange 0 (blockCount a) := by
    unfold dequeuedBlocks
    rw [(final_queue a cp st h hpc hN).2, filter_full]
  rw [final_threads a cp st h hpc, pendingSum_replicate_terminated, add_zero, hdq,
    cellsOf_eq] at hc
  exact Multiset.coe_eq_coe.mp hc

/-- Without worker threads nothing is ever popped or written. -/
theorem no_workers {C : Type} (a : Args) (cp : Int → Int → Int → C) (st : State C)
    (h : Inv a cp st) (hN : a.numThreads ≤ 0) :
    st.threads = [] ∧ st.deqLog = [] ∧ st.writeLog = [] := by
  have hlen : st.threads.length = 0 := by
    have := h.spawned
    have hok := h.pc_ok
    cases hpc : st.pc with
    | start => rw [hpc] at this; simpa [spawnedAt] using this
    | spawn k =>
      rw [hpc] at this hok
      obtain ⟨_, hk0, hk⟩ := hok
      simp only [spawnedAt] at this
      omega
    | fill i => rw [hpc] at this; simp only [spawnedAt] at this; omega
    | tokens i => rw [hpc] at this; simp only [spawnedAt] at this; omega
    | join i => rw [hpc] at this; simp only [spawnedAt] at this; omega
    | exited s =>
      rw [hpc] at this
      simp only [spawnedAt] at this
      split at this <;> omega
    | trapped => rw [hpc] at this; simpa [spawnedAt] using this
  refine ⟨List.length_eq_zero.mp hlen, ?_, ?_⟩
  · apply List.eq_nil_iff_forall_not_mem.mpr
    intro e he
    have := h.deq_lt e he
    omega
  · apply List.eq_nil_iff_forall_not_mem.mpr
    intro e he
    have := h.write_lt e he
    omega

/-- A run that passes the divisibility test can always be continued to `return 0`. -/
theorem can_finish {C : Type} (a : Args) (cp : Int → Int → Int → C)
    (hu : ¬ remainderUndefined a) (hm : a.viewPlaneResolutionX.tmod a.blockSize = 0)
    (sched : List Move) :
    ∃ sched', noWake sched' ∧ (run a cp (sched ++ sched') (init a)).pc = Pc.exited 0 := by
  have hinv := inv_reachable a cp sched
  obtain ⟨sched', s, hnw, hs⟩ := completion a cp hu _ _ hinv (le_refl _)
  refine ⟨sched', hnw, ?_⟩
  rw [run_append, hs]
  have hok := (inv_run a cp sched' _ hinv).pc_ok
  rw [hs] at hok
  rcases hok with ⟨rfl, _⟩ | ⟨_, hne, _⟩
  · rfl
  · exact absurd hm hne

theorem exit_status_zero {C : Type} (a : Args) (cp : Int → Int → Int → C) (st : State C)
    (h : Inv a cp st) (hm : a.viewPlaneResolutionX.tmod a.blockSize = 0) (s : Int)
    (hpc : st.pc = Pc.exited s) : s = 0 := by
  have hok := h.pc_ok
  rw [hpc] at hok
  rcases hok with ⟨rfl, _⟩ | ⟨_, hne, _⟩
  · rfl
  · exact absurd hm hne

theorem count_eq_one_of_nodup {α : Type} [BEq α] [LawfulBEq α] (l : List α) (x : α)
    (hnd : l.Nodup) (hx : x ∈ l) : l.count x = 1 := by
  induction l with
  | nil => simp at hx
  | cons y ys ih =>
    rw [List.nodup_cons] at hnd
    rw [List.count_cons]
    rcases List.mem_cons.mp hx with rfl | hin
    · rw [List.count_eq_zero_of_not_mem hnd.1]
      simp
    · have hne : ¬ (y == x) = true := by
        intro h
        have := eq_of_beq h
        subst this
        exact hnd.1 hin
      rw [ih hnd.2 hin]
      simp [hne]

/-- C1 (partition completeness).  For a non-negative `int` width that is a multiple of
the block size `B ≥ 1`: the block identifiers the dispatcher pushes are, in
every state of every run, an initial part of `0, ..., W/B - 1`, and all of them
once `main` has returned; for such an identifier `i` the columns `func` visits
are `i*B, ..., i*B + B - 1`; the column ranges of two different identifiers
have no column in common; every column of `[0, W)` lies in exactly one of
them; and none of them holds a column outside `[0, W)`. -/
theorem partition_complete {C : Type} (a : Args) (computePixel : Int → Int → Int → C)
    (hv : Valid a) :
    (∀ sched : List Move,
      (pushed (run a computePixel sched (init a)).events).filter (fun e => decide (e ≠ -1))
        <+: intRange 0 (a.viewPlaneResolutionX / a.blockSize))
    ∧ (∀ sched : List Move, (run a computePixel sched (init a)).pc = Pc.exited 0 →
      (pushed (run a computePixel sched (init a)).events).filter (fun e => decide (e ≠ -1))
        = intRange 0 (a.viewPlaneResolutionX / a.blockSize))
    ∧ (∀ i, 0 ≤ i → i < a.viewPlaneResolutionX / a.blockSize →
      funcColumns i a.blockSize = intRange (i * a.blockSize) (i * a.blockSize + a.blockSize))
    ∧ (∀ i j, 0 ≤ i → i < a.viewPlaneResolutionX / a.blockSize →
      0 ≤ j → j < a.viewPlaneResolutionX / a.blockSize → i ≠ j →
      ∀ x, x ∈ funcColumns i a.blockSize → x ∉ funcColumns j a.blockSize)
    ∧ (∀ x, 0 ≤ x → x < a.viewPlaneResolutionX →
      ∃! i, (0 ≤ i ∧ i < a.viewPlaneResolutionX / a.blockSize) ∧ x ∈ funcColumns i a.blockSize)
    ∧ (∀ i, 0 ≤ i → i < a.viewPlaneResolutionX / a.blockSize →
      ∀ x ∈ funcColumns i a.blockSize, 0 ≤ x ∧ x < a.viewPlaneResolutionX) := by
  obtain ⟨hP, hP0, hmul⟩ := valid_blockCount a hv
  have hB : 1 ≤ a.blockSize := hv.2.2.1
  refine ⟨?_, ?_, ?_, ?_, ?_, ?_⟩
  · intro sched
    have hinv := inv_reachable a computePixel sched
    have hpre := pushed_eventsAt_initial a _ hinv.pc_ok
    rw [← hinv.events_eq] at hpre
    have := hpre.filter (fun e => decide (e ≠ -1))
    rw [filter_full, hP] at this
    exact this
  · intro sched hpc
    have hinv := inv_reachable a computePixel sched
    rw [exited_zero_events a computePixel _ hinv hpc, pushed_fullEvents, filter_full, hP]
  · intro i hi0 hi1
    obtain ⟨hlo, hhi, _⟩ := valid_block_bounds a hv i hi0 hi1
    unfold funcColumns
    rw [hlo, hhi]
  · intro i j hi0 hi1 hj0 hj1 hne x hx hx'
    rw [mem_funcColumns_valid a hv i x hi0 hi1] at hx
    rw [mem_funcColumns_valid a hv j x hj0 hj1] at hx'
    exact hne (block_unique a.blockSize i j x hB hx hx')
  · intro x hx0 hxW
    obtain ⟨b1, b2, b3, b4⟩ := block_exists a.blockSize a.viewPlaneResolutionX x hB hx0 hxW hmul
    refine ⟨x / a.blockSize, ⟨⟨b1, b2⟩, ?_⟩, ?_⟩
    · rw [mem_funcColumns_valid a hv _ x b1 b2]
      exact ⟨b3, b4⟩
    · rintro j ⟨⟨hj0, hj1⟩, hj⟩
      rw [mem_funcColumns_valid a hv j x hj0 hj1] at hj
      exact block_unique a.blockSize j _ x hB hj ⟨b3, b4⟩
  · intro i hi0 hi1 x hx
    rw [mem_funcColumns_valid a hv i x hi0 hi1] at hx
    obtain ⟨_, _, hle⟩ := valid_block_bounds a hv i hi0 hi1
    have : 0 ≤ i * a.blockSize := mul_nonneg hi0 (by omega)
    omega

theorem partition_complete_witness :
    Valid demoArgs
    ∧ (pushed (run demoArgs demoPixel demoSchedule (init demoArgs)).events).filter
        (fun e => decide (e ≠ -1)) = intRange 0 (4 / 2)
    ∧ (∀ x : Int, 0 ≤ x → x < 4 →
        ∃! i, (0 ≤ i ∧ i < (4 : Int) / 2) ∧ x ∈ funcColumns i 2) :=
  ⟨by decide,
    (partition_complete demoArgs demoPixel (by decide)).2.1 demoSchedule (by decide),
    (partition_complete demoArgs demoPixel (by decide)).2.2.2.2.1⟩

/-- C5 (dispatcher enqueue sequence).  For a valid partition and any worker count `N`
(`N.toNat` is `N` for `N ≥ 0`) the items pushed are, in every state of every run, an initial part of
`0, 1, ..., W/B - 1` followed by `N` copies of `-1`, and the whole of it once
`main` has reached the joins or has returned; no block identifier is `-1`; and
the queue holds the pushed items that were not popped, in the order of the
pushes. -/
theorem enqueue_sequence {C : Type} (a : Args) (computePixel : Int → Int → Int → C)
    (hv : Valid a) (sched : List Move) :
    pushed (run a computePixel sched (init a)).events
        <+: intRange 0 (a.viewPlaneResolutionX / a.blockSize)
          ++ List.replicate a.numThreads.toNat (-1)
    ∧ (((∃ i, (run a computePixel sched (init a)).pc = Pc.join i)
          ∨ (run a computePixel sched (init a)).pc = Pc.exited 0) →
        pushed (run a computePixel sched (init a)).events
          = intRange 0 (a.viewPlaneResolutionX / a.blockSize)
            ++ List.replicate a.numThreads.toNat (-1))
    ∧ (∀ i ∈ intRange 0 (a.viewPlaneResolutionX / a.blockSize), i ≠ -1)
    ∧ (run a computePixel sched (init a)).deqLog.map Prod.snd
          ++ (run a computePixel sched (init a)).data
        = pushed (run a computePixel sched (init a)).events := by
  obtain ⟨hP, hP0, hmul⟩ := valid_blockCount a hv
  have hinv := inv_reachable a computePixel sched
  refine ⟨?_, ?_, ?_, hinv.queue_eq⟩
  · have hpre := pushed_eventsAt_initial a _ hinv.pc_ok
    rw [← hinv.events_eq, hP] at hpre
    exact hpre
  · intro hpc
    rw [hinv.events_eq, ← hP]
    rcases hpc with ⟨i, hi⟩ | hz
    · rw [hi]
      exact pushed_fullEvents a
    · rw [hz]
      exact pushed_fullEvents a
  · intro i hi
    rw [mem_intRange] at hi
    omega

theorem enqueue_sequence_witness :
    Valid demoArgs
    ∧ pushed (run demoArgs demoPixel demoSchedule (init demoArgs)).events = [0, 1, -1, -1] := by
  refine ⟨by decide, ?_⟩
  rw [(enqueue_sequence demoArgs demoPixel (by decide) demoSchedule).2.1
    (Or.inr (by decide))]
  decide

/-- The image of a finished run with at least one worker and a valid partition. -/
theorem final_image {C : Type} (a : Args) (cp : Int → Int → Int → C) (st : State C)
    (hv : Valid a) (h : Inv a cp st) (hpc : st.pc = Pc.exited 0) (hN : 1 ≤ a.numThreads)
    (x y : Int) :
    st.image.cells x y
      = if (0 ≤ x ∧ x < a.viewPlaneResolutionX) ∧ 0 ≤ y ∧ y < a.viewPlaneResolutionY
        then some (cp x y a.numOfSamples) else none := by
  rw [h.image_eq x y, h.history_eq]
  have hperm := final_writes a cp st h hpc hN
  have hiff : (x, y) ∈ st.writeLog.map Prod.snd
      ↔ (0 ≤ x ∧ x < a.viewPlaneResolutionX) ∧ 0 ≤ y ∧ y < a.viewPlaneResolutionY := by
    rw [hperm.mem_iff]
    exact mem_blocksCells_valid a hv x y
  by_cases hg : (0 ≤ x ∧ x < a.viewPlaneResolutionX) ∧ 0 ≤ y ∧ y < a.viewPlaneResolutionY
  · rw [if_pos (hiff.mpr hg), if_pos hg]
  · rw [if_neg (fun hin => hg (hiff.mp hin)), if_neg hg]

theorem unique_of_count_le_one (l : List (Nat × Int)) (i : Int)
    (h : (l.map Prod.snd).count i ≤ 1) (w1 w2 : Nat) (h1 : (w1, i) ∈ l) (h2 : (w2, i) ∈ l) :
    w1 = w2 := by
  induction l with
  | nil => simp at h1
  | cons e es ih =>
    simp only [List.map_cons, List.count_cons] at h
    by_cases he : e.2 = i
    · have hz : (es.map Prod.snd).count i = 0 := by
        simp only [he, beq_self_eq_true, if_true] at h
        omega
      have hnot : ∀ w, (w, i) ∉ es := by
        intro w hw
        have : i ∈ es.map Prod.snd := List.mem_map.mpr ⟨(w, i), hw, rfl⟩
        exact (List.count_eq_zero.mp hz) this
      rcases List.mem_cons.mp h1 with e1 | e1
      · rcases List.mem_cons.mp h2 with e2 | e2
        · rw [← e1] at e2
          exact ((Prod.mk.inj e2).1).symm
        · exact absurd e2 (hnot w2)
      · exact absurd e1 (hnot w1)
    · have hne1 : (w1, i) ≠ e := fun hh => he (by rw [← hh])
      have hne2 : (w2, i) ≠ e := fun hh => he (by rw [← hh])
      have h1' := (List.mem_cons.mp h1).resolve_left hne1
      have h2' := (List.mem_cons.mp h2).resolve_left hne2
      have hc : (es.map Prod.snd).count i ≤ 1 := by omega
      exact ih hc h1' h2'

/-- In every state of a run each block identifier has been popped at most once. -/
theorem block_popped_once {C : Type} (a : Args) (cp : Int → Int → Int → C) (st : State C)
    (h : Inv a cp st) (i : Int) (hi : i ≠ -1) : (st.deqLog.map Prod.snd).count i ≤ 1 := by
  have hsub := dequeuedBlocks_sublist a cp st h
  have h1 : (dequeuedBlocks st.deqLog).count i = (st.deqLog.map Prod.snd).count i := by
    unfold dequeuedBlocks
    rw [List.count_filter]
    simpa using hi
  rw [← h1]
  exact le_trans (hsub.count_le i) (List.nodup_iff_count_le_one.mp (nodup_intRange _ _) i)

/-- C3 (full population, whatever the worker count and the schedule).  For a valid
partition and `N ≥ 1` workers, in the state of any run in which `main` has
returned (its joins are over) every cell `(x, y)` of the `W x H` image holds
`computePixel x y S`; and the cells of that image equal, cell for cell, those
of any finished run of the same arguments with another worker count `n ≥ 1`
and another schedule. -/
theorem full_population {C : Type} (a : Args) (computePixel : Int → Int → Int → C)
    (hv : Valid a) (hN : 1 ≤ a.numThreads) (sched : List Move)
    (hfin : (run a computePixel sched (init a)).pc = Pc.exited 0) :
    (∀ x y, 0 ≤ x → x < a.viewPlaneResolutionX → 0 ≤ y → y < a.viewPlaneResolutionY →
      (run a computePixel sched (init a)).image.cells x y
        = some (computePixel x y a.numOfSamples))
    ∧ (∀ (n : Int) (sched' : List Move), 1 ≤ n →
      (run { a with numThreads := n } computePixel sched'
        (init { a with numThreads := n })).pc = Pc.exited 0 →
      ∀ x y,
        (run { a with numThreads := n } computePixel sched'
          (init { a with numThreads := n })).image.cells x y
        = (run a computePixel sched (init a)).image.cells x y) := by
  have hinv := inv_reachable a computePixel sched
  constructor
  · intro x y hx0 hx1 hy0 hy1
    rw [final_image a computePixel _ hv hinv hfin hN x y, if_pos ⟨⟨hx0, hx1⟩, hy0, hy1⟩]
  · intro n sched' hn hfin' x y
    have hinv' := inv_reachable { a with numThreads := n } computePixel sched'
    rw [final_image a computePixel _ hv hinv hfin hN x y,
      final_image { a with numThreads := n } computePixel _ hv hinv' hfin' hn x y]

theorem full_population_witness :
    Valid demoArgs ∧ (1 : Int) ≤ demoArgs.numThreads
    ∧ (run demoArgs demoPixel demoSchedule (init demoArgs)).pc = Pc.exited 0
    ∧ funcColumns 0 2 = [0, 1] ∧ funcColumns 1 2 = [2, 3]
    ∧ (∀ x y : Int, 0 ≤ x → x < 4 → 0 ≤ y → y < 2 →
        (run demoArgs demoPixel demoSchedule (init demoArgs)).image.cells x y
          = some (demoPixel x y 1)) :=
  ⟨by decide, by decide, by decide, by decide, by decide,
    (full_population demoArgs demoPixel (by decide) (by decide) demoSchedule (by decide)).1⟩

/-- C4 (write exclusivity).  For a valid partition and `N ≥ 1` workers, in every
state of every run no cell has been written twice, so no cell has been
written by two workers, and no block identifier has been popped twice; and
once `main` has returned each block identifier `0 ≤ i < W/B` was popped by
exactly one worker, each cell of the `W x H` image was written exactly once,
and no other cell was written. -/
theorem write_exclusive {C : Type} (a : Args) (computePixel : Int → Int → Int → C)
    (hv : Valid a) (hN : 1 ≤ a.numThreads) (sched : List Move) :
    ((run a computePixel sched (init a)).writeLog.map Prod.snd).Nodup
    ∧ (∀ w1 w2 c, (w1, c) ∈ (run a computePixel sched (init a)).writeLog →
        (w2, c) ∈ (run a computePixel sched (init a)).writeLog → w1 = w2)
    ∧ (∀ i w1 w2, i ≠ -1 → (w1, i) ∈ (run a computePixel sched (init a)).deqLog →
        (w2, i) ∈ (run a computePixel sched (init a)).deqLog → w1 = w2)
    ∧ ((run a computePixel sched (init a)).pc = Pc.exited 0 →
        (∀ i, 0 ≤ i → i < a.viewPlaneResolutionX / a.blockSize →
          ∃! w, (w, i) ∈ (run a computePixel sched (init a)).deqLog)
        ∧ (∀ x y, 0 ≤ x → x < a.viewPlaneResolutionX → 0 ≤ y → y < a.viewPlaneResolutionY →
          ∃! w, (w, (x, y)) ∈ (run a computePixel sched (init a)).writeLog)
        ∧ (∀ x y, ((run a computePixel sched (init a)).writeLog.map Prod.snd).count (x, y)
            = if (0 ≤ x ∧ x < a.viewPlaneResolutionX) ∧ 0 ≤ y ∧ y < a.viewPlaneResolutionY
              then 1 else 0)) := by
  have hinv := inv_reachable a computePixel sched
  have hnd := nodup_writes a computePixel _ hv hinv
  have hw : ∀ w1 w2 c, (w1, c) ∈ (run a computePixel sched (init a)).writeLog →
      (w2, c) ∈ (run a computePixel sched (init a)).writeLog → w1 = w2 := by
    intro w1 w2 c h1 h2
    have := List.inj_on_of_nodup_map hnd h1 h2 rfl
    exact (Prod.mk.inj this).1
  have hd : ∀ i w1 w2, i ≠ -1 → (w1, i) ∈ (run a computePixel sched (init a)).deqLog →
      (w2, i) ∈ (run a computePixel sched (init a)).deqLog → w1 = w2 := by
    intro i w1 w2 hi h1 h2
    exact unique_of_count_le_one _ i (block_popped_once a computePixel _ hinv i hi) w1 w2 h1 h2
  refine ⟨hnd, hw, hd, ?_⟩
  intro hfin
  obtain ⟨hP, hP0, hmul⟩ := valid_blockCount a hv
  have hperm := final_writes a computePixel _ hinv hfin hN
  have hq := (final_queue a computePixel _ hinv hfin hN).2
  have hmem : ∀ x y, (x, y) ∈ (run a computePixel sched (init a)).writeLog.map Prod.snd
      ↔ (0 ≤ x ∧ x < a.viewPlaneResolutionX) ∧ 0 ≤ y ∧ y < a.viewPlaneResolutionY := by
    intro x y
    rw [hperm.mem_iff]
    exact mem_blocksCells_valid a hv x y
  refine ⟨?_, ?_, ?_⟩
  · intro i hi0 hi1
    have hin : i ∈ (run a computePixel sched (init a)).deqLog.map Prod.snd := by
      rw [hq, hP]
      exact List.mem_append_left _ ((mem_intRange 0 _ i).mpr ⟨hi0, hi1⟩)
    obtain ⟨⟨w0, j⟩, he, hei⟩ := List.mem_map.mp hin
    simp only at hei
    subst hei
    exact ⟨w0, he, fun w hw' => hd _ w w0 (by omega) hw' he⟩
  · intro x y hx0 hx1 hy0 hy1
    have hin := (hmem x y).mpr ⟨⟨hx0, hx1⟩, hy0, hy1⟩
    obtain ⟨⟨w0, c⟩, he, hec⟩ := List.mem_map.mp hin
    simp only at hec
    subst hec
    exact ⟨w0, he, fun w hw' => hw w w0 _ hw' he⟩
  · intro x y
    split
    · next hg => exact count_eq_one_of_nodup _ _ hnd ((hmem x y).mpr hg)
    · next hg => exact List.count_eq_zero_of_not_mem (fun hin => hg ((hmem x y).mp hin))

theorem write_exclusive_witness :
    Valid demoArgs ∧ (1 : Int) ≤ demoArgs.numThreads
    ∧ (run demoArgs demoPixel demoSchedule (init demoArgs)).pc = Pc.exited 0
    ∧ (run demoArgs demoPixel demoSchedule (init demoArgs)).deqLog
        = [(1, 0), (0, 1), (0, -1), (1, -1)]
    ∧ ((run demoArgs demoPixel demoSchedule (init demoArgs)).writeLog.map Prod.snd).Nodup
    ∧ (∀ x y : Int, 0 ≤ x → x < 4 → 0 ≤ y → y < 2 →
        ∃! w, (w, (x, y)) ∈ (run demoArgs demoPixel demoSchedule (init demoArgs)).writeLog) :=
  ⟨by decide, by decide, by decide, by decide,
    (write_exclusive demoArgs demoPixel (by decide) (by decide) demoSchedule).1,
    ((write_exclusive demoArgs demoPixel (by decide) (by decide) demoSchedule).2.2.2
      (by decide)).2.1⟩

/-- C6 (termination without deadlock).  For a valid partition and `N ≥ 1` workers:
a schedule without spurious wake-up performs at most `budget` steps; in a
state of a run (spurious wake-ups included) in which neither `main` nor a
worker can move, `main` has returned with status 0; every run can be continued,
without spurious wake-up, until `main` has returned; and in a state where
`main` has returned all `N` workers have returned, each of them popped exactly
one token, the `N` tokens popped went to different workers, and the queue is
empty.  A worker that has returned makes no further step. -/
theorem termination_no_deadlock {C : Type} (a : Args) (computePixel : Int → Int → Int → C)
    (hv : Valid a) (hN : 1 ≤ a.numThreads) :
    (∀ sched : List Move, noWake sched →
      executed a computePixel sched (init a) ≤ budget a (init a : State C))
    ∧ (∀ sched : List Move, stuck a computePixel (run a computePixel sched (init a)) →
      (run a computePixel sched (init a)).pc = Pc.exited 0)
    ∧ (∀ sched : List Move, ∃ sched', noWake sched' ∧
      (run a computePixel (sched ++ sched') (init a)).pc = Pc.exited 0)
    ∧ (∀ sched : List Move, (run a computePixel sched (init a)).pc = Pc.exited 0 →
      (run a computePixel sched (init a)).threads
          = List.replicate a.numThreads.toNat Worker.terminated
      ∧ (∀ w, w < a.numThreads.toNat →
          (run a computePixel sched (init a)).deqLog.count (w, -1) = 1)
      ∧ ((run a computePixel sched (init a)).deqLog.map Prod.snd).count (-1)
          = a.numThreads.toNat
      ∧ (takers (run a computePixel sched (init a)).deqLog).Nodup
      ∧ (run a computePixel sched (init a)).data = [])
    ∧ (∀ (sched : List Move) (w : Nat),
      (run a computePixel sched (init a)).threads[w]? = some Worker.terminated →
      thread_func_step a computePixel w (run a computePixel sched (init a)) = none
      ∧ spurious_wake w (run a computePixel sched (init a)) = none) := by
  have hm : a.viewPlaneResolutionX.tmod a.blockSize = 0 := hv.2.2.2
  have hu : ¬ remainderUndefined a := valid_defined a hv
  refine ⟨?_, ?_, ?_, ?_, ?_⟩
  · intro sched hnw
    have := executed_le_budget a computePixel sched (init a) (inv_init a computePixel) hnw
    omega
  · intro sched hstuck
    have hinv := inv_reachable a computePixel sched
    by_cases hex : ∃ s, (run a computePixel sched (init a)).pc = Pc.exited s
    · obtain ⟨s, hs⟩ := hex
      rw [hs, exit_status_zero a computePixel _ hinv hm s hs]
    · exact absurd hstuck (not_stuck a computePixel _ hinv (fun s hs => hex ⟨s, hs⟩)
        (not_trapped a computePixel _ hinv hu))
  · intro sched
    exact can_finish a computePixel hu hm sched
  · intro sched hfin
    have hinv := inv_reachable a computePixel sched
    have hq := final_queue a computePixel _ hinv hfin hN
    have hth := final_threads a computePixel _ hinv hfin
    refine ⟨hth, ?_, ?_, hinv.takers_nodup, hq.1⟩
    · intro w hw
      rw [← takers_count]
      apply count_eq_one_of_nodup _ _ hinv.takers_nodup
      rw [hinv.takers_iff, hth]
      simp [hw]
    · rw [hq.2, List.count_append, count_intRange_neg 0 _ (le_refl _)]
      simp
  · intro sched w hw
    constructor
    · simp only [thread_func_step, hw]
    · simp [spurious_wake, hw]

theorem termination_no_deadlock_witness :
    Valid demoArgs ∧ (1 : Int) ≤ demoArgs.numThreads
    ∧ executed demoArgs demoPixel demoSchedule (init demoArgs) = 29
    ∧ executed demoArgs demoPixel demoSchedule (init demoArgs)
        ≤ budget demoArgs (init demoArgs : State Int)
    ∧ (run demoArgs demoPixel demoSchedule (init demoArgs)).pc = Pc.exited 0
    ∧ (run demoArgs demoPixel demoSchedule (init demoArgs)).data = [] :=
  ⟨by decide, by decide, by decide,
    (termination_no_deadlock demoArgs demoPixel (by decide) (by decide)).1 demoSchedule
      (by decide),
    by decide,
    ((termination_no_deadlock demoArgs demoPixel (by decide) (by decide)).2.2.2.1
      demoSchedule (by decide)).2.2.2.2⟩

theorem abort_step {C : Type} (a : Args) (cp : Int → Int → Int → C)
    (hu : ¬ remainderUndefined a)
    (hm : a.viewPlaneResolutionX.tmod a.blockSize ≠ 0) (m : Move) (st : State C)
    (h : st = init a ∨ st = aborted a) :
    (step a cp m st).getD st = init a ∨ (step a cp m st).getD st = aborted a := by
  rcases h with rfl | rfl
  · cases m with
    | main choice =>
      right
      simp [step, main_step, init, hu, hm, aborted]
    | worker w =>
      left
      simp [step, thread_func_step, init]
    | wake w =>
      left
      simp [step, spurious_wake, init]
  · cases m with
    | main choice =>
      right
      simp [step, main_step, aborted]
    | worker w =>
      right
      simp [step, thread_func_step, aborted, init]
    | wake w =>
      right
      simp [step, spurious_wake, aborted, init]

theorem abort_run {C : Type} (a : Args) (cp : Int → Int → Int → C)
    (hu : ¬ remainderUndefined a)
    (hm : a.viewPlaneResolutionX.tmod a.blockSize ≠ 0) (sched : List Move) (st : State C)
    (h : st = init a ∨ st = aborted a) :
    run a cp sched st = init a ∨ run a cp sched st = aborted a := by
  induction sched generalizing st with
  | nil => exact h
  | cons m ms ih =>
    simp only [run, List.foldl_cons]
    exact ih _ (abort_step a cp hu hm m st h)

/-- Where the remainder of line 96 has no value `main` never returns. -/
theorem trapped_never_exits {C : Type} (a : Args) (cp : Int → Int → Int → C)
    (hu : remainderUndefined a) (sched : List Move) (s : Int) :
    (run a cp sched (init a)).pc ≠ Pc.exited s := by
  intro hpc
  have hok := (inv_reachable a cp sched).pc_ok
  rw [hpc] at hok
  rcases hok with ⟨_, _, hn⟩ | ⟨_, _, hn⟩ <;> exact hn hu

/-- C2 as stated fails for the width `INT_MIN` with the block size `-1`: the block
size is not zero and the truncating remainder is `0`, yet the first step of
`main` is the trap of the division at line 96, and no run returns, with
status `0` or any other. -/
theorem fail_fast_counterexample :
    trapArgs.blockSize ≠ 0
    ∧ Int.tmod trapArgs.viewPlaneResolutionX trapArgs.blockSize = 0
    ∧ (run trapArgs demoPixel [Move.main 0] (init trapArgs)).pc = Pc.trapped
    ∧ (∀ (sched : List Move) (s : Int),
        (run trapArgs demoPixel sched (init trapArgs)).pc ≠ Pc.exited s) :=
  ⟨by decide, by decide, by decide,
    fun sched s => trapped_never_exits trapArgs demoPixel (by decide) sched s⟩

/-- C2 (amended: the width `INT_MIN` with the block size `-1` is left out).  For a
non-zero block size, and not the pair `INT_MIN`, `-1`: some run ends with
exit status `-1` exactly when `W mod B ≠ 0` (truncating remainder), and every
exit status is `0` or `-1`.  When `W mod B ≠ 0` the first step of `main` is
that return, every run can be continued to it, and every state of every run
has no thread, an empty queue, no event (no push), no pop, no write and the
blank image.  When `W mod B = 0` no run ends with `-1`, every run can be
continued (without spurious wake-up) until `main` returns `0`, a schedule
without spurious wake-up performs at most `budget` steps, and a state in which
neither `main` nor a worker can move has exit status `0`. -/
theorem fail_fast {C : Type} (a : Args) (computePixel : Int → Int → Int → C)
    (hB : a.blockSize ≠ 0)
    (hT : ¬ (a.viewPlaneResolutionX = -2147483648 ∧ a.blockSize = -1)) :
    ((∃ sched : List Move, (run a computePixel sched (init a)).pc = Pc.exited (-1))
        ↔ a.viewPlaneResolutionX.tmod a.blockSize ≠ 0)
    ∧ (∀ (sched : List Move) (s : Int),
        (run a computePixel sched (init a)).pc = Pc.exited s → s = 0 ∨ s = -1)
    ∧ (a.viewPlaneResolutionX.tmod a.blockSize ≠ 0 →
        (∀ choice, main_step a choice (init a : State C) = some (aborted a))
        ∧ (∀ sched : List Move, ∃ sched',
            (run a computePixel (sched ++ sched') (init a)).pc = Pc.exited (-1))
        ∧ (∀ sched : List Move,
            (run a computePixel sched (init a)).threads = []
            ∧ (run a computePixel sched (init a)).data = []
            ∧ (run a computePixel sched (init a)).events = []
            ∧ (run a computePixel sched (init a)).deqLog = []
            ∧ (run a computePixel sched (init a)).writeLog = []
            ∧ (run a computePixel sched (init a)).image
                = Image.blank a.viewPlaneResolutionX a.viewPlaneResolutionY))
    ∧ (a.viewPlaneResolutionX.tmod a.blockSize = 0 →
        (∀ sched : List Move, (run a computePixel sched (init a)).pc ≠ Pc.exited (-1))
        ∧ (∀ sched : List Move, ∃ sched', noWake sched' ∧
            (run a computePixel (sched ++ sched') (init a)).pc = Pc.exited 0)
        ∧ (∀ sched : List Move, noWake sched →
            executed a computePixel sched (init a) ≤ budget a (init a : State C))
        ∧ (∀ sched : List Move, stuck a computePixel (run a computePixel sched (init a)) →
            (run a computePixel sched (init a)).pc = Pc.exited 0)) := by
  have hu : ¬ remainderUndefined a := by
    rintro (h0 | h1)
    · exact hB h0
    · exact hT h1
  have hfirst : a.viewPlaneResolutionX.tmod a.blockSize ≠ 0 →
      ∀ choice, main_step a choice (init a : State C) = some (aborted a) := by
    intro hm choice
    simp [main_step, init, hu, hm, aborted]
  have hreach : a.viewPlaneResolutionX.tmod a.blockSize ≠ 0 → ∀ sched : List Move,
      ∃ sched', (run a computePixel (sched ++ sched') (init a)).pc = Pc.exited (-1) := by
    intro hm sched
    refine ⟨[Move.main 0], ?_⟩
    rw [run_append]
    rcases abort_run a computePixel hu hm sched (init a) (Or.inl rfl) with h | h
    · rw [h]
      simp [run, step, hfirst hm 0, aborted]
    · rw [h]
      simp [run, step, main_step, aborted]
  refine ⟨⟨?_, ?_⟩, ?_, ?_, ?_⟩
  · rintro ⟨sched, hs⟩
    have hok := (inv_reachable a computePixel sched).pc_ok
    rw [hs] at hok
    rcases hok with ⟨h0, _⟩ | ⟨_, hne, _⟩
    · omega
    · exact hne
  · intro hm
    obtain ⟨sched', hs⟩ := hreach hm []
    exact ⟨_, hs⟩
  · intro sched s hs
    have hok := (inv_reachable a computePixel sched).pc_ok
    rw [hs] at hok
    rcases hok with ⟨h0, _⟩ | ⟨h1, _⟩
    · exact Or.inl h0
    · exact Or.inr h1
  · intro hm
    refine ⟨hfirst hm, hreach hm, ?_⟩
    intro sched
    rcases abort_run a computePixel hu hm sched (init a) (Or.inl rfl) with h | h
    · rw [h]
      simp [init]
    · rw [h]
      simp [aborted, init]
  · intro hm
    refine ⟨?_, can_finish a computePixel hu hm, ?_, ?_⟩
    · intro sched hs
      have := exit_status_zero a computePixel _ (inv_reachable a computePixel sched) hm _ hs
      omega
    · intro sched hnw
      have := executed_le_budget a computePixel sched (init a) (inv_init a computePixel) hnw
      omega
    · intro sched hstuck
      have hinv := inv_reachable a computePixel sched
      by_cases hex : ∃ s, (run a computePixel sched (init a)).pc = Pc.exited s
      · obtain ⟨s, hs⟩ := hex
        rw [hs, exit_status_zero a computePixel _ hinv hm s hs]
      · exact absurd hstuck (not_stuck a computePixel _ hinv (fun s hs => hex ⟨s, hs⟩)
          (not_trapped a computePixel _ hinv hu))

theorem fail_fast_witness :
    abortArgs.blockSize ≠ 0
    ∧ ¬ (abortArgs.viewPlaneResolutionX = -2147483648 ∧ abortArgs.blockSize = -1)
    ∧ Int.tmod 10 3 ≠ 0
    ∧ main_step abortArgs 0 (init abortArgs : State Int) = some (aborted abortArgs)
    ∧ (aborted abortArgs : State Int).pc = Pc.exited (-1)
    ∧ (run abortArgs demoPixel [Move.main 0, Move.worker 0, Move.main 0]
        (init abortArgs)).image = Image.blank 10 2
    ∧ Int.tmod 4 2 = 0
    ∧ (run demoArgs demoPixel demoSchedule (init demoArgs)).pc = Pc.exited 0
    ∧ (run demoArgs demoPixel demoSchedule (init demoArgs)).pc ≠ Pc.exited (-1) :=
  ⟨by decide, by decide, by decide,
    ((fail_fast abortArgs demoPixel (by decide) (by decide)).2.2.1 (by decide)).1 0,
    rfl,
    (((fail_fast abortArgs demoPixel (by decide) (by decide)).2.2.1 (by decide)).2.2
      [Move.main 0, Move.worker 0, Move.main 0]).2.2.2.2.2,
    by decide, by decide,
    ((fail_fast demoArgs demoPixel (by decide) (by decide)).2.2.2 (by decide)).1 demoSchedule⟩

/-- C10 (no worker).  For a valid partition and a worker count `N ≤ 0`, in every state
of every run there is no thread, nothing was popped, no cell was written, no
terminal token was pushed, and `main` never finds a thread to join; a run can
always be continued until `main` returns, its exit status is then `0`, and
the `W/B` block identifiers are still in the queue. -/
theorem degenerate_workers {C : Type} (a : Args) (computePixel : Int → Int → Int → C)
    (hv : Valid a) (hN : a.numThreads ≤ 0) (sched : List Move) :
    (run a computePixel sched (init a)).threads = []
    ∧ (run a computePixel sched (init a)).deqLog = []
    ∧ (run a computePixel sched (init a)).writeLog = []
    ∧ (run a computePixel sched (init a)).image.history = []
    ∧ (∀ x y, (run a computePixel sched (init a)).image.cells x y = none)
    ∧ (-1) ∉ pushed (run a computePixel sched (init a)).events
    ∧ (∀ i, (run a computePixel sched (init a)).pc = Pc.join i → ¬ i < a.numThreads)
    ∧ (∀ s, (run a computePixel sched (init a)).pc = Pc.exited s →
        s = 0
        ∧ (run a computePixel sched (init a)).data
            = intRange 0 (a.viewPlaneResolutionX / a.blockSize)
        ∧ pushed (run a computePixel sched (init a)).events
            = intRange 0 (a.viewPlaneResolutionX / a.blockSize))
    ∧ (∃ sched', noWake sched' ∧
        (run a computePixel (sched ++ sched') (init a)).pc = Pc.exited 0) := by
  have hinv := inv_reachable a computePixel sched
  obtain ⟨hth, hdq, hwl⟩ := no_workers a computePixel _ hinv hN
  obtain ⟨hP, hP0, hmul⟩ := valid_blockCount a hv
  have hm : a.viewPlaneResolutionX.tmod a.blockSize = 0 := hv.2.2.2
  have hN0 : a.numThreads.toNat = 0 := by omega
  have hhist : (run a computePixel sched (init a)).image.history = [] := by
    rw [hinv.history_eq, hwl]
    rfl
  refine ⟨hth, hdq, hwl, hhist, ?_, ?_, ?_, ?_,
    can_finish a computePixel (valid_defined a hv) hm sched⟩
  · intro x y
    rw [hinv.image_eq x y, hhist]
    simp
  · intro hmem
    have hpre := pushed_eventsAt_initial a _ hinv.pc_ok
    rw [← hinv.events_eq, hN0] at hpre
    have := hpre.subset hmem
    simp only [List.replicate_zero, List.append_nil] at this
    rw [mem_intRange] at this
    omega
  · intro i hi
    have hok := hinv.pc_ok
    rw [hi] at hok
    have := hok.2.1
    omega
  · intro s hs
    have hs0 := exit_status_zero a computePixel _ hinv hm s hs
    subst hs0
    have hev := exited_zero_events a computePixel _ hinv hs
    have hq := hinv.queue_eq
    rw [hdq, hev, pushed_fullEvents, hN0, hP] at hq
    simp only [List.map_nil, List.nil_append, List.replicate_zero, List.append_nil] at hq
    refine ⟨rfl, hq, ?_⟩
    rw [hev, pushed_fullEvents, hN0, hP]
    simp

theorem degenerate_workers_witness :
    Valid idleArgs ∧ idleArgs.numThreads ≤ 0
    ∧ (run idleArgs demoPixel (List.replicate 7 (Move.main 0)) (init idleArgs)).pc = Pc.exited 0
    ∧ (run idleArgs demoPixel (List.replicate 7 (Move.main 0)) (init idleArgs)).data = [0, 1]
    ∧ (∀ x y, (run idleArgs demoPixel (List.replicate 7 (Move.main 0))
        (init idleArgs)).image.cells x y = none) :=
  ⟨by decide, by decide, by decide, by decide,
    (degenerate_workers idleArgs demoPixel (by decide) (by decide)
      (List.replicate 7 (Move.main 0))).2.2.2.2.1⟩

theorem set_self_of_getElem? (l : List Worker) (w : Nat) (t : Worker) (h : l[w]? = some t) :
    l.set w t = l := by
  apply List.ext_getElem?
  intro n
  rw [List.getElem?_set]
  by_cases hn : w = n
  · subst hn
    have hlt : w < l.length := (List.getElem?_eq_some.mp h).1
    simp [hlt, h]
  · simp [hn]

theorem getElem?_set_self_of (l : List Worker) (w : Nat) (t t' : Worker) (h : l[w]? = some t) :
    (l.set w t')[w]? = some t' := by
  have hlt : w < l.length := (List.getElem?_eq_some.mp h).1
  rw [List.getElem?_set]
  simp [hlt]

theorem run_cons {C : Type} (a : Args) (cp : Int → Int → Int → C) (m : Move) (ms : List Move)
    (st : State C) : run a cp (m :: ms) st = run a cp ms ((step a cp m st).getD st) := rfl

/-- A worker inside `func` writes its pending pixels one after the other. -/
theorem render_run {C : Type} (a : Args) (cp : Int → Int → Int → C) (w : Nat)
    (p : List (Int × Int)) : ∀ st : State C, st.threads[w]? = some (Worker.rendering p) →
    run a cp (List.replicate p.length (Move.worker w)) st
      = { st with
          image := p.foldl (fun img c => img.set c.1 c.2 (cp c.1 c.2 a.numOfSamples)) st.image
          writeLog := st.writeLog ++ p.map (fun c => (w, c))
          threads := st.threads.set w (Worker.rendering []) } := by
  induction p with
  | nil =>
    intro st h
    simp [run, set_self_of_getElem? _ _ _ h]
  | cons c p ih =>
    intro st h
    obtain ⟨x, y⟩ := c
    rw [List.length_cons, List.replicate_succ, run_cons]
    have hstep : step a cp (Move.worker w) st
        = some { st with
            image := st.image.set x y (cp x y a.numOfSamples)
            writeLog := st.writeLog ++ [(w, (x, y))]
            threads := st.threads.set w (Worker.rendering p) } := by
      simp only [step, thread_func_step, h]
    rw [hstep, Option.getD_some, ih _ (getElem?_set_self_of _ _ _ _ h)]
    simp [List.set_set]

theorem run_replicate_add {C : Type} (a : Args) (cp : Int → Int → Int → C) (m : Move)
    (n k : Nat) (st : State C) :
    run a cp (List.replicate (n + k) m) st
      = run a cp (List.replicate k m) (run a cp (List.replicate n m) st) := by
  rw [List.replicate_add, run_append]

theorem run_replicate_none {C : Type} (a : Args) (cp : Int → Int → Int → C) (m : Move)
    (st : State C) (h : step a cp m st = none) (k : Nat) :
    run a cp (List.replicate k m) st = st := by
  induction k with
  | zero => rfl
  | succ k ih => rw [List.replicate_succ, run_cons, h, Option.getD_none, ih]

/-- A worker alone pops and renders the blocks in front of the first token, pops
that token and returns. -/
theorem worker_alone_run {C : Type} (a : Args) (cp : Int → Int → Int → C) (w : Nat)
    (post pre : List Int) : ∀ st : State C,
    st.threads[w]? = some Worker.idle → st.data = pre ++ -1 :: post → (-1) ∉ pre →
    ∃ n, run a cp (List.replicate n (Move.worker w)) st
      = { st with
          data := post
          threads := st.threads.set w Worker.terminated
          deqLog := st.deqLog ++ (pre ++ [-1]).map (fun e => (w, e))
          image := pre.foldl
            (fun img e => func cp img e a.blockSize a.viewPlaneResolutionY a.numOfSamples)
            st.image
          writeLog := st.writeLog ++ (blocksCells a pre).map (fun c => (w, c)) } := by
  induction pre with
  | nil =>
    intro st hw hq _
    refine ⟨1, ?_⟩
    simp only [List.nil_append] at hq
    simp [run, step, thread_func_step, hw, hq, blocksCells]
  | cons e pre ih =>
    intro st hw hq hpre
    have he : e ≠ -1 := fun h => hpre (by rw [h]; exact List.mem_cons_self _ _)
    have hpre' : (-1) ∉ pre := fun h => hpre (List.mem_cons_of_mem _ h)
    have hstep1 : step a cp (Move.worker w) st
        = some { st with
            data := pre ++ -1 :: post
            deqLog := st.deqLog ++ [(w, e)]
            threads := st.threads.set w
              (Worker.rendering (funcCells e a.blockSize a.viewPlaneResolutionY)) } := by
      simp only [step, thread_func_step, hw, hq, List.cons_append, he, if_false]
    have h1 := getElem?_set_self_of st.threads w Worker.idle
      (Worker.rendering (funcCells e a.blockSize a.viewPlaneResolutionY)) hw
    have hrender := render_run a cp w (funcCells e a.blockSize a.viewPlaneResolutionY)
      { st with
        data := pre ++ -1 :: post
        deqLog := st.deqLog ++ [(w, e)]
        threads := st.threads.set w
          (Worker.rendering (funcCells e a.blockSize a.viewPlaneResolutionY)) } h1
    simp only [List.set_set] at hrender
    have h2 := getElem?_set_self_of st.threads w Worker.idle (Worker.rendering []) hw
    have hstep3 : step a cp (Move.worker w)
        { st with
          data := pre ++ -1 :: post
          deqLog := st.deqLog ++ [(w, e)]
          image := (funcCells e a.blockSize a.viewPlaneResolutionY).foldl
            (fun img c => img.set c.1 c.2 (cp c.1 c.2 a.numOfSamples)) st.image
          writeLog := st.writeLog
            ++ (funcCells e a.blockSize a.viewPlaneResolutionY).map (fun c => (w, c))
          threads := st.threads.set w (Worker.rendering []) }
        = some { st with
          data := pre ++ -1 :: post
          deqLog := st.deqLog ++ [(w, e)]
          image := (funcCells e a.blockSize a.viewPlaneResolutionY).foldl
            (fun img c => img.set c.1 c.2 (cp c.1 c.2 a.numOfSamples)) st.image
          writeLog := st.writeLog
            ++ (funcCells e a.blockSize a.viewPlaneResolutionY).map (fun c => (w, c))
          threads := st.threads.set w Worker.idle } := by
      simp only [step, thread_func_step, h2, List.set_set]
    obtain ⟨n, hn⟩ := ih
      { st with
        data := pre ++ -1 :: post
        deqLog := st.deqLog ++ [(w, e)]
        image := (funcCells e a.blockSize a.viewPlaneResolutionY).foldl
          (fun img c => img.set c.1 c.2 (cp c.1 c.2 a.numOfSamples)) st.image
        writeLog := st.writeLog
          ++ (funcCells e a.blockSize a.viewPlaneResolutionY).map (fun c => (w, c))
        threads := st.threads.set w Worker.idle }
      (getElem?_set_self_of st.threads w Worker.idle Worker.idle hw) rfl hpre'
    refine ⟨1 + ((funcCells e a.blockSize a.viewPlaneResolutionY).length + (1 + n)), ?_⟩
    rw [run_replicate_add, run_replicate_add, run_replicate_add]
    have r1 : run a cp (List.replicate 1 (Move.worker w)) st
        = { st with
            data := pre ++ -1 :: post
            deqLog := st.deqLog ++ [(w, e)]
            threads := st.threads.set w
              (Worker.rendering (funcCells e a.blockSize a.viewPlaneResolutionY)) } := by
      simp only [List.replicate_one, run, List.foldl_cons, List.foldl_nil, hstep1,
        Option.getD_some]
    rw [r1, hrender]
    have r3 : ∀ s s' : State C, step a cp (Move.worker w) s = some s' →
        run a cp (List.replicate 1 (Move.worker w)) s = s' := by
      intro s s' hs
      simp only [List.replicate_one, run, List.foldl_cons, List.foldl_nil, hs, Option.getD_some]
    rw [r3 _ _ hstep3, hn]
    simp only [List.set_set, List.foldl_cons, func_eq_foldl, blocksCells, List.flatMap_cons,
      List.map_append, List.cons_append, List.map_cons, List.append_assoc, List.singleton_append,
      List.nil_append]

theorem split_at_token (q : List Int) (h : (-1) ∈ q) :
    q = q.takeWhile (fun e => decide (e ≠ -1))
        ++ -1 :: (q.dropWhile (fun e => decide (e ≠ -1))).tail
      ∧ (-1) ∉ q.takeWhile (fun e => decide (e ≠ -1)) := by
  induction q with
  | nil => simp at h
  | cons e es ih =>
    by_cases he : e = -1
    · subst he
      simp
    · have hin : (-1) ∈ es := by
        rcases List.mem_cons.mp h with h' | h'
        · exact absurd h'.symm he
        · exact h'
      obtain ⟨h1, h2⟩ := ih hin
      have hne : ¬ (-1 = e) := fun h' => he h'.symm
      simp only [List.takeWhile_cons, List.dropWhile_cons, he, ne_eq, not_false_eq_true,
        decide_True, if_true, List.cons_append, List.mem_cons, hne, false_or]
      exact ⟨by rw [← h1], h2⟩

/-- C8 (the worker loop stops at the first terminal token).  A worker that is idle in
front of a queue holding at least one `-1`, and that is the only thread to
move, reaches after some number of its own steps a state in which: it has
returned; it popped, in queue order, the items in front of the first `-1` and
then that `-1`; the image is the result of `func` called once for each of
these block identifiers, in that order; the items behind the first `-1` are
the queue, unchanged; the worker can make no further step; and more steps of
the schedule change nothing. -/
theorem worker_stops_at_first_token {C : Type} (a : Args) (computePixel : Int → Int → Int → C)
    (w : Nat) (st : State C) (hw : st.threads[w]? = some Worker.idle)
    (hq : (-1) ∈ st.data) :
    ∃ n,
      (run a computePixel (List.replicate n (Move.worker w)) st).threads
          = st.threads.set w Worker.terminated
      ∧ (run a computePixel (List.replicate n (Move.worker w)) st).deqLog
          = st.deqLog
            ++ (st.data.takeWhile (fun e => decide (e ≠ -1)) ++ [-1]).map (fun e => (w, e))
      ∧ (run a computePixel (List.replicate n (Move.worker w)) st).image
          = (st.data.takeWhile (fun e => decide (e ≠ -1))).foldl
              (fun img e =>
                func computePixel img e a.blockSize a.viewPlaneResolutionY a.numOfSamples)
              st.image
      ∧ (run a computePixel (List.replicate n (Move.worker w)) st).data
          = (st.data.dropWhile (fun e => decide (e ≠ -1))).tail
      ∧ thread_func_step a computePixel w
          (run a computePixel (List.replicate n (Move.worker w)) st) = none
      ∧ (∀ k, run a computePixel (List.replicate (n + k) (Move.worker w)) st
          = run a computePixel (List.replicate n (Move.worker w)) st) := by
  obtain ⟨hsplit, hnot⟩ := split_at_token st.data hq
  obtain ⟨n, hn⟩ := worker_alone_run a computePixel w _ _ st hw hsplit hnot
  have hterm := getElem?_set_self_of st.threads w Worker.idle Worker.terminated hw
  have hnone : thread_func_step a computePixel w
      (run a computePixel (List.replicate n (Move.worker w)) st) = none := by
    rw [hn]
    simp only [thread_func_step, hterm]
  refine ⟨n, ?_, ?_, ?_, ?_, hnone, ?_⟩
  · rw [hn]
  · rw [hn]
  · rw [hn]
  · rw [hn]
  · intro k
    rw [run_replicate_add]
    exact run_replicate_none a computePixel (Move.worker w) _ hnone k

theorem worker_stops_at_first_token_witness :
    aloneState.threads[0]? = some Worker.idle ∧ (-1) ∈ aloneState.data
    ∧ ∃ n,
      (run demoArgs demoPixel (List.replicate n (Move.worker 0)) aloneState).threads
          = [Worker.terminated]
      ∧ (run demoArgs demoPixel (List.replicate n (Move.worker 0)) aloneState).deqLog
          = [(0, 0), (0, -1)]
      ∧ (run demoArgs demoPixel (List.replicate n (Move.worker 0)) aloneState).data
          = [1, -1] := by
  refine ⟨by decide, by decide, ?_⟩
  obtain ⟨n, h1, h2, _, h4, _, _⟩ :=
    worker_stops_at_first_token demoArgs demoPixel 0 aloneState (by decide) (by decide)
  exact ⟨n, h1, h2, h4⟩

theorem tokenEvents_add (n k : Nat) : ∃ rest, tokenEvents (n + k) = tokenEvents n ++ rest := by
  induction k with
  | zero => exact ⟨[], by simp⟩
  | succ k ih =>
    obtain ⟨rest, hr⟩ := ih
    refine ⟨rest ++ [Event.lock, Event.push (-1), Event.unlock], ?_⟩
    rw [← Nat.add_assoc, tokenEvents, hr, List.append_assoc]

theorem tokenEvents_initial (n m : Nat) (h : n ≤ m) : tokenEvents n <+: tokenEvents m := by
  obtain ⟨k, rfl⟩ := Nat.exists_eq_add_of_le h
  obtain ⟨rest, hr⟩ := tokenEvents_add n k
  exact ⟨rest, hr.symm⟩

theorem tokenEvents_eq_flatten (n : Nat) :
    tokenEvents n
      = (List.replicate n [Event.lock, Event.push (-1), Event.unlock]).flatten := by
  induction n with
  | zero => rfl
  | succ n ih =>
    rw [tokenEvents, ih, List.replicate_succ']
    simp

theorem eventsAt_initial (a : Args) (pc : Pc) (h : pcOk a pc) :
    eventsAt a pc <+: fullEvents a := by
  unfold fullEvents
  cases pc with
  | start => exact List.nil_prefix
  | spawn k => exact List.nil_prefix
  | fill i =>
    obtain ⟨_, hi0, hiP⟩ := h
    simp only [eventsAt]
    rcases hiP with hle | rfl
    · rw [intRange_append 0 i _ hi0 hle, blockEvents_append, List.append_assoc,
        List.append_assoc]
      exact List.prefix_append _ _
    · rw [intRange_empty 0 0 (le_refl _)]
      exact List.nil_prefix
  | tokens j =>
    obtain ⟨_, hj0, hjN⟩ := h
    simp only [eventsAt]
    rw [List.append_assoc]
    apply (List.prefix_append_right_inj _).mpr
    exact (tokenEvents_initial _ _ (by omega)).trans (List.prefix_append _ _)
  | join i => exact List.prefix_refl _
  | exited s =>
    simp only [eventsAt]
    split
    · exact List.prefix_refl _
    · exact List.nil_prefix
  | trapped => exact List.nil_prefix

theorem pushLocked_blockEvents (ids : List Int) (rest : List Event) :
    pushLocked false (blockEvents ids ++ rest) = pushLocked false rest := by
  induction ids with
  | nil => rfl
  | cons i ids ih =>
    have : blockEvents (i :: ids) ++ rest
        = Event.lock :: Event.push i :: Event.notifyOne :: Event.unlock
          :: (blockEvents ids ++ rest) := by
      simp [blockEvents]
    rw [this]
    simp only [pushLocked, Bool.true_and]
    exact ih

theorem pushLocked_tokenEvents (n : Nat) (rest : List Event) :
    pushLocked false (tokenEvents n ++ rest) = pushLocked false rest := by
  induction n generalizing rest with
  | zero => rfl
  | succ n ih =>
    rw [tokenEvents, List.append_assoc, ih]
    simp [pushLocked]

theorem pushLocked_eventsAt (a : Args) (pc : Pc) : pushLocked false (eventsAt a pc) = true := by
  have hfull : pushLocked false (fullEvents a) = true := by
    unfold fullEvents
    rw [List.append_assoc, pushLocked_blockEvents, pushLocked_tokenEvents]
    rfl
  cases pc with
  | start => rfl
  | spawn k => rfl
  | fill i =>
    have := pushLocked_blockEvents (intRange 0 i) []
    simp only [List.append_nil] at this
    simp only [eventsAt, this]
    rfl
  | tokens j =>
    have := pushLocked_tokenEvents j.toNat []
    simp only [List.append_nil] at this
    simp only [eventsAt, pushLocked_blockEvents, this]
    rfl
  | join i => exact hfull
  | exited s =>
    simp only [eventsAt]
    split
    · exact hfull
    · rfl
  | trapped => rfl

theorem pushSignalled_blockEvents (ids : List Int) :
    pushSignalled false false (blockEvents ids) = true := by
  induction ids with
  | nil => rfl
  | cons i ids ih =>
    have : blockEvents (i :: ids)
        = Event.lock :: Event.push i :: Event.notifyOne :: Event.unlock :: blockEvents ids := by
      simp [blockEvents]
    rw [this]
    simp only [pushSignalled, Bool.true_and, Bool.not_true, Bool.and_false, Bool.not_false]
    exact ih

/-- C9 as stated fails on a terminal token: in the run of `main` alone with the
arguments `1 1 1 1 1` the push of `-1` is followed by the release of the mutex
without a signal in between, and `notify_all` comes after the release. -/
theorem push_signalled_counterexample :
    (run tokenArgs demoPixel (List.replicate 7 (Move.main 0)) (init tokenArgs)).events
        = [Event.lock, Event.push 0, Event.notifyOne, Event.unlock,
           Event.lock, Event.push (-1), Event.unlock, Event.notifyAll]
    ∧ pushSignalled false false
        (run tokenArgs demoPixel (List.replicate 7 (Move.main 0)) (init tokenArgs)).events
        = false := by
  decide

/-- C9 (amended).  In every state of every run the dispatcher's events are an
initial part of: for each block identifier in increasing order `lock, push i,
notify_one, unlock`; then for each of the `N` tokens `lock, push -1, unlock`;
then one `notify_all`.  They are all of it once `main` has returned `0`.  So
every push is made with the mutex held, a block push is signalled before the
mutex is released (while `main` is in the loop of line 136 the discipline of
the specification holds of all its events), and the token pushes are
signalled once, together, after the last release. -/
theorem push_discipline {C : Type} (a : Args) (computePixel : Int → Int → Int → C)
    (sched : List Move) :
    (run a computePixel sched (init a)).events
        <+: (intRange 0 (blockCount a)).flatMap
              (fun i => [Event.lock, Event.push i, Event.notifyOne, Event.unlock])
            ++ (List.replicate a.numThreads.toNat
                [Event.lock, Event.push (-1), Event.unlock]).flatten
            ++ [Event.notifyAll]
    ∧ ((run a computePixel sched (init a)).pc = Pc.exited 0 →
        (run a computePixel sched (init a)).events
          = (intRange 0 (blockCount a)).flatMap
              (fun i => [Event.lock, Event.push i, Event.notifyOne, Event.unlock])
            ++ (List.replicate a.numThreads.toNat
                [Event.lock, Event.push (-1), Event.unlock]).flatten
            ++ [Event.notifyAll])
    ∧ pushLocked false (run a computePixel sched (init a)).events = true
    ∧ (∀ i, (run a computePixel sched (init a)).pc = Pc.fill i →
        pushSignalled false false (run a computePixel sched (init a)).events = true) := by
  have hinv := inv_reachable a computePixel sched
  have hfull : fullEvents a
      = (intRange 0 (blockCount a)).flatMap
          (fun i => [Event.lock, Event.push i, Event.notifyOne, Event.unlock])
        ++ (List.replicate a.numThreads.toNat
            [Event.lock, Event.push (-1), Event.unlock]).flatten
        ++ [Event.notifyAll] := by
    unfold fullEvents blockEvents
    rw [tokenEvents_eq_flatten]
  refine ⟨?_, ?_, ?_, ?_⟩
  · rw [← hfull, hinv.events_eq]
    exact eventsAt_initial a _ hinv.pc_ok
  · intro hpc
    rw [← hfull]
    exact exited_zero_events a computePixel _ hinv hpc
  · rw [hinv.events_eq]
    exact pushLocked_eventsAt a _
  · intro i hi
    rw [hinv.events_eq, hi]
    exact pushSignalled_blockEvents _

end Raytracing
